import Mathlib

/-!
Shallow embedding of the `laptop_power_saver` sampling engine
(`src/lps/sampler.py`, `src/lps/db.py`, `src/lps/utils.py`).

Python floats are modelled as rationals (`ℚ`); the claims under study are
real-arithmetic relations (max/min/clamp/comparisons), not rounding facts.
Python dicts are modelled as association lists with insert-or-overwrite and
erase operations that mirror dict update / `pop` semantics (keys are unique
in every list built by these operations).
-/

namespace LPS

/-- A process identity key, `(pid, create_time)` — `ProcKey` in `sampler.py`. -/
abbrev ProcKey := Int × ℚ

/-! ### Association-list operations standing in for Python dicts -/

/-- `d[k] = v` on a dict: overwrite the binding in place, else append. -/
def alInsert : List (ProcKey × α) → ProcKey → α → List (ProcKey × α)
  | [], k, v => [(k, v)]
  | p :: t, k, v => if p.1 = k then (k, v) :: t else p :: alInsert t k v

/-- `d.pop(k, None)` on a dict: drop any binding for `k`. -/
def alErase : List (ProcKey × α) → ProcKey → List (ProcKey × α)
  | [], _ => []
  | p :: t, k => if p.1 = k then alErase t k else p :: alErase t k

/-- `d.get(k)` on a dict. -/
def alLookup : List (ProcKey × α) → ProcKey → Option α
  | [], _ => none
  | p :: t, k => if p.1 = k then some p.2 else alLookup t k

theorem alLookup_insert_self (l : List (ProcKey × α)) (k : ProcKey) (v : α) :
    alLookup (alInsert l k v) k = some v := by
  induction l with
  | nil => simp [alInsert, alLookup]
  | cons a t ih =>
    by_cases ha : a.1 = k
    · simp [alInsert, alLookup, ha]
    · simp [alInsert, alLookup, ha, ih]

theorem alLookup_insert_ne (l : List (ProcKey × α)) (k k' : ProcKey) (v : α)
    (h : k' ≠ k) : alLookup (alInsert l k v) k' = alLookup l k' := by
  induction l with
  | nil => simp [alInsert, alLookup, Ne.symm h]
  | cons a t ih =>
    by_cases ha : a.1 = k
    · simp [alInsert, alLookup, ha, Ne.symm h]
    · by_cases ha' : a.1 = k'
      · simp [alInsert, alLookup, ha, ha', h]
      · simp [alInsert, alLookup, ha, ha', ih]

theorem alLookup_erase_ne (l : List (ProcKey × α)) (k k' : ProcKey)
    (h : k' ≠ k) : alLookup (alErase l k) k' = alLookup l k' := by
  induction l with
  | nil => simp [alErase, alLookup]
  | cons a t ih =>
    by_cases ha : a.1 = k
    · have hne : a.1 ≠ k' := by rw [ha]; exact Ne.symm h
      simp only [alErase, if_pos ha, alLookup, if_neg hne]
      exact ih
    · by_cases ha' : a.1 = k'
      · simp only [alErase, if_neg ha, alLookup, if_pos ha']
      · simp only [alErase, if_neg ha, alLookup, if_neg ha']
        exact ih

theorem alLookup_erase_self (l : List (ProcKey × α)) (k : ProcKey) :
    alLookup (alErase l k) k = none := by
  induction l with
  | nil => simp [alErase, alLookup]
  | cons a t ih =>
    by_cases ha : a.1 = k
    · simp only [alErase, if_pos ha]
      exact ih
    · simp only [alErase, if_neg ha, alLookup, if_neg ha]
      exact ih

/-- `clamp` from `src/lps/utils.py`:
`return lo if v < lo else hi if v > hi else v`. -/
def clamp (v lo hi : ℚ) : ℚ :=
  if v < lo then lo else if hi < v then hi else v

theorem clamp_le (v lo hi : ℚ) (h : lo ≤ hi) : clamp v lo hi ≤ hi := by
  unfold clamp
  split_ifs with h1 h2
  · exact h
  · exact le_refl hi
  · linarith

theorem le_clamp (v lo hi : ℚ) (h : lo ≤ hi) : lo ≤ clamp v lo hi := by
  unfold clamp
  split_ifs with h1 h2
  · exact le_refl lo
  · exact h
  · linarith

/-! ### Database model (`src/lps/db.py`)

One `process` row (`ended` is the schema's 0/1 integer flag). -/

structure ProcessRecord where
  id : Nat
  pid : Int
  create_time : ℚ
  exe_path : Option String
  name : Option String
  cmdline : Option String
  username : Option String
  ppid : Option Int
  first_seen : ℚ
  last_seen : ℚ
  ended : Nat
  partial_meta : Bool
deriving DecidableEq

/-- One `sample` row (`active` is the 0/1 integer computed at line 204). -/
structure Sample where
  ts : ℚ
  process_id : Nat
  dt_s : ℚ
  delta_cpu_s : ℚ
  eff_cores : ℚ
  active : Nat
  rss_bytes : Option Int
  vms_bytes : Option Int
  io_read_bytes : Option Int
  io_write_bytes : Option Int
deriving DecidableEq

/-- The database contents; `next_id` models the `INTEGER PRIMARY KEY` rowid
allocator for `process`. Retention pruning is not modelled (no claim under
study involves `prune_old_samples`). -/
structure DB where
  procs : List ProcessRecord
  samples : List Sample
  next_id : Nat
deriving DecidableEq

/-- Whether a `process` row matches the `UNIQUE(pid, create_time)` key. -/
def matchKey (pid : Int) (create_time : ℚ) (r : ProcessRecord) : Bool :=
  decide (r.pid = pid ∧ r.create_time = create_time)

/-- The `DO UPDATE SET` clause of `insert_or_get_process_id`
(`db.py` lines 83–90): `last_seen` always set to the excluded (new) value,
metadata fields coalesced old-first, `partial_meta` OR-ed. -/
def upsertUpdate (r : ProcessRecord) (exe_path name cmdline username : Option String)
    (ppid : Option Int) (now_ts : ℚ) (partial_meta : Bool) : ProcessRecord :=
  { r with
    last_seen := now_ts
    exe_path := r.exe_path.or exe_path
    name := r.name.or name
    cmdline := r.cmdline.or cmdline
    username := r.username.or username
    ppid := r.ppid.or ppid
    partial_meta := r.partial_meta || partial_meta }

/-- `insert_or_get_process_id` (`db.py` lines 64–109): upsert keyed by
`(pid, create_time)`, then `SELECT id` for that key. Returns `(id, new db)`. -/
def insertOrGetProcessId (db : DB) (pid : Int) (create_time : ℚ)
    (exe_path name cmdline username : Option String) (ppid : Option Int)
    (now_ts : ℚ) (partial_meta : Bool) : Nat × DB :=
  if db.procs.any (matchKey pid create_time) then
    let procs' := db.procs.map fun r =>
      if matchKey pid create_time r then
        upsertUpdate r exe_path name cmdline username ppid now_ts partial_meta
      else r
    let i := match procs'.find? (matchKey pid create_time) with
      | some r => r.id
      | none => 0
    (i, { db with procs := procs' })
  else
    let r : ProcessRecord :=
      ⟨db.next_id, pid, create_time, exe_path, name, cmdline, username, ppid,
        now_ts, now_ts, 0, partial_meta⟩
    (db.next_id, { db with procs := db.procs ++ [r], next_id := db.next_id + 1 })

/-- `mark_process_ended` (`db.py` lines 130–137):
`UPDATE process SET ended=1, last_seen=? WHERE id IN (...)`. -/
def markProcessEnded (db : DB) (ids : List Nat) (last_seen_ts : ℚ) : DB :=
  { db with procs := db.procs.map fun r =>
      if r.id ∈ ids then { r with ended := 1, last_seen := last_seen_ts } else r }

/-- A SQLite connection: the transaction's current view plus the last
committed snapshot. `commit` publishes the view; `rollback` reverts to the
snapshot. -/
structure Conn where
  cur : DB
  committed : DB
deriving DecidableEq

def Conn.commit (c : Conn) : Conn := ⟨c.cur, c.cur⟩

def Conn.rollback (c : Conn) : Conn := ⟨c.committed, c.committed⟩

/-! ### Process snapshots (`psutil.process_iter` as seen by `sampler.py`) -/

/-- `proc.info["cpu_times"]`: attributes are best-effort. -/
structure CpuTimes where
  user : Option ℚ
  system : Option ℚ
deriving DecidableEq

/-- The raw `info.get("cmdline")` value: a list of strings or a string. -/
inductive CmdVal where
  | items : List String → CmdVal
  | text : String → CmdVal
deriving DecidableEq

/-- One entry of `psutil.process_iter(attrs=...)`: every field may be absent
(`None`) if the OS denies access, matching `proc.info` in `sampler.py`. -/
structure ProcInfo where
  pid : Option Int
  create_time : Option ℚ
  exe : Option String
  name : Option String
  cmdline : Option CmdVal
  username : Option String
  ppid : Option Int
  cpu_times : Option CpuTimes
  memory_rss : Option Int
  memory_vms : Option Int
  io_read_bytes : Option Int
  io_write_bytes : Option Int
deriving DecidableEq

/-- `_safe_str` (`sampler.py` lines 345–354): `None` or empty becomes `None`. -/
def safeStr : Option String → Option String
  | none => none
  | some s => if s = "" then none else some s

/-- `sampler.py` lines 138–142: a list is joined with spaces (without
`_safe_str`), anything else goes through `_safe_str`. -/
def cmdlineStr : Option CmdVal → Option String
  | some (CmdVal.items l) => some (String.intercalate " " l)
  | some (CmdVal.text s) => safeStr (some s)
  | none => none

/-- `sampler.py` lines 126–132: the `(pid, create_time)` key; if either is
unreadable the process is skipped entirely. -/
def resolveKey (p : ProcInfo) : Option ProcKey :=
  match p.pid, p.create_time with
  | some pid, some ct => some (pid, ct)
  | _, _ => none

/-- `_cpu_total_seconds` (`sampler.py` lines 332–342): `user + system`, or
`None` when the object or either field is absent. -/
def cpuTotalSeconds : Option CpuTimes → Option ℚ
  | none => none
  | some c =>
    match c.user, c.system with
    | some u, some s => some (u + s)
    | _, _ => none

/-! ### The Sampler (`src/lps/sampler.py`) -/

/-- Constructor-time configuration of `Sampler` (`__init__`): `cpu_count` is
already `max(1, psutil.cpu_count(logical=True) or 1)`. -/
structure SamplerCfg where
  cpu_count : Nat
  active_threshold : ℚ
  collect_mem : Bool
  collect_io : Bool
deriving DecidableEq

/-- The Sampler's cross-tick in-memory state: `_prev_cpu`, `_procid`,
`_missing_ticks`, `_last_mono`. (`_last_cleanup_ts` drives only the
unmodelled pruning.) -/
structure SamplerState where
  prev_cpu : List (ProcKey × ℚ)
  procid : List (ProcKey × Nat)
  missing_ticks : List (ProcKey × Nat)
  last_mono : Option ℚ
deriving DecidableEq

/-- `sampler.py` lines 196–199: zero without a baseline or readable CPU
value, else `max(0, total - prev)`. -/
def deltaCpu (prev_total total_cpu : Option ℚ) : ℚ :=
  match prev_total, total_cpu with
  | some p, some t => max 0 (t - p)
  | _, _ => 0

/-- `sampler.py` lines 201–203: `delta/dt` guarded against `dt ≤ 0`, capped
at `cpu_count * 1.5`. -/
def effCores (delta dt : ℚ) (cpu_count : Nat) : ℚ :=
  min (if 0 < dt then delta / dt else 0) ((cpu_count : ℚ) * (3 / 2))

/-- `sampler.py` line 204: `1 if delta_cpu >= active_threshold * dt else 0`. -/
def activeFlag (delta thr dt : ℚ) : Nat :=
  if thr * dt ≤ delta then 1 else 0

/-- The `partial_meta` value computed in `tick` (lines 150–157) and
`_bootstrap_baseline` (lines 284–285): set exactly when `_cpu_total_seconds`
returned `None`. -/
def tickPartialMeta (p : ProcInfo) : Bool :=
  (cpuTotalSeconds p.cpu_times).isNone

/-- Accumulator of the per-process loop of `tick` (lines 124–224). -/
structure TickAcc where
  db : DB
  procid : List (ProcKey × Nat)
  rows : List Sample
  seen : List (ProcKey × ℚ)
deriving DecidableEq

/-- The `Sample` row appended for one enumerated process with resolved key
`key` and database id `i` (`tick` lines 150–220): the delta, effective
cores, activity flag and the optionally-collected memory/io fields. -/
def sampleOf (cfg : SamplerCfg) (prev_cpu : List (ProcKey × ℚ))
    (dt ts_now : ℚ) (key : ProcKey) (i : Nat) (p : ProcInfo) : Sample :=
  let total_cpu := cpuTotalSeconds p.cpu_times
  let prev_total : Option ℚ :=
    match total_cpu with
    | none => none
    | some _ => alLookup prev_cpu key
  let delta := deltaCpu prev_total total_cpu
  ⟨ts_now, i, dt, delta, effCores delta dt cfg.cpu_count,
    activeFlag delta cfg.active_threshold dt,
    (if cfg.collect_mem then p.memory_rss else none),
    (if cfg.collect_mem then p.memory_vms else none),
    (if cfg.collect_io then p.io_read_bytes else none),
    (if cfg.collect_io then p.io_write_bytes else none)⟩

/-- One iteration of the enumeration loop of `tick` (lines 124–224). -/
def stepProc (cfg : SamplerCfg) (prev_cpu : List (ProcKey × ℚ)) (dt ts_now : ℚ)
    (acc : TickAcc) (p : ProcInfo) : TickAcc :=
  match resolveKey p with
  | none => acc
  | some key =>
    let total_cpu := cpuTotalSeconds p.cpu_times
    let pr := insertOrGetProcessId acc.db key.1 key.2 (safeStr p.exe)
      (safeStr p.name) (cmdlineStr p.cmdline) (safeStr p.username) p.ppid
      ts_now (tickPartialMeta p)
    { db := pr.2
      procid := alInsert acc.procid key pr.1
      rows := acc.rows ++ [sampleOf cfg prev_cpu dt ts_now key pr.1 p]
      seen :=
        match total_cpu with
        | some t => alInsert acc.seen key t
        | none => acc.seen }

/-- Accumulator of the missing-key loop in `_handle_missing_and_ended`. -/
structure MissAcc where
  prev_cpu : List (ProcKey × ℚ)
  missing : List (ProcKey × Nat)
  procid : List (ProcKey × Nat)
  ended_ids : List Nat
deriving DecidableEq

/-- One iteration of the loop over `self._prev_cpu` keys
(`sampler.py` lines 311–321). -/
def stepMissing (seen_keys : List ProcKey) (acc : MissAcc) (key : ProcKey) :
    MissAcc :=
  if key ∈ seen_keys then acc
  else
    let cnt := (alLookup acc.missing key).getD 0 + 1
    if 2 ≤ cnt then
      { prev_cpu := alErase acc.prev_cpu key
        missing := alErase acc.missing key
        procid := alErase acc.procid key
        ended_ids := acc.ended_ids ++
          (match alLookup acc.procid key with
           | some i => [i]
           | none => []) }
    else
      { acc with missing := alInsert acc.missing key cnt }

/-- The state part of `_handle_missing_and_ended` (lines 303–321): advance
baselines from `seen`, reset their missing counters, then walk the remaining
tracked keys. Returns the new maps and the collected `ended_ids`. -/
def handleMissingState (st : SamplerState) (seen : List (ProcKey × ℚ)) :
    MissAcc :=
  let prev1 := seen.foldl (fun m kt => alInsert m kt.1 kt.2) st.prev_cpu
  let miss1 := seen.foldl (fun m kt => alErase m kt.1) st.missing_ticks
  (prev1.map Prod.fst).foldl (stepMissing (seen.map Prod.fst))
    ⟨prev1, miss1, st.procid, []⟩

/-- `_handle_missing_and_ended` (lines 303–329): the best-effort
`mark_process_ended` write commits on success and rolls back on failure
(`mark_ok` models whether that write raises). -/
def handleMissingAndEnded (st : SamplerState) (conn : Conn)
    (seen : List (ProcKey × ℚ)) (ts_now : ℚ) (mark_ok : Bool) :
    SamplerState × Conn :=
  let acc := handleMissingState st seen
  let st' : SamplerState :=
    { st with prev_cpu := acc.prev_cpu, missing_ticks := acc.missing,
              procid := acc.procid }
  let conn' :=
    if acc.ended_ids = [] then conn
    else if mark_ok then
      Conn.commit { conn with
        cur := markProcessEnded conn.cur acc.ended_ids ts_now }
    else conn.rollback
  (st', conn')

/-- A steady (non-bootstrap) `tick` (lines 102–235), given that
`_last_mono = last_mono`. `sample_write_ok` models whether the batched
sample insert of lines 227–232 succeeds; on failure it is rolled back and
the exception re-raised, so `_handle_missing_and_ended` never runs and the
returned flag is `false`. Retention pruning (lines 237–246) is not
modelled. -/
def steadyTick (cfg : SamplerCfg) (st : SamplerState) (conn : Conn)
    (last_mono mono_now ts_now : ℚ) (procs : List ProcInfo)
    (sample_write_ok mark_ok : Bool) : Bool × SamplerState × Conn :=
  let dt := clamp (mono_now - last_mono) (1 / 4) 5
  let acc := procs.foldl (stepProc cfg st.prev_cpu dt ts_now)
    ⟨conn.cur, st.procid, [], []⟩
  if sample_write_ok then
    let conn1 := Conn.commit
      ⟨{ acc.db with samples := acc.db.samples ++ acc.rows }, conn.committed⟩
    let r := handleMissingAndEnded
      { st with procid := acc.procid, last_mono := some mono_now }
      conn1 acc.seen ts_now mark_ok
    (true, r.1, r.2)
  else
    (false, { st with procid := acc.procid, last_mono := some mono_now },
      conn.rollback)

/-- One iteration of `_bootstrap_baseline`'s loop (lines 262–301). -/
structure BootAcc where
  db : DB
  procid : List (ProcKey × Nat)
  prev_cpu : List (ProcKey × ℚ)
deriving DecidableEq

def stepBootstrap (ts_now : ℚ) (acc : BootAcc) (p : ProcInfo) : BootAcc :=
  match resolveKey p with
  | none => acc
  | some key =>
    let total_cpu := cpuTotalSeconds p.cpu_times
    let pr := insertOrGetProcessId acc.db key.1 key.2 (safeStr p.exe)
      (safeStr p.name) (cmdlineStr p.cmdline) (safeStr p.username) p.ppid
      ts_now (tickPartialMeta p)
    { db := pr.2
      procid := alInsert acc.procid key pr.1
      prev_cpu :=
        match total_cpu with
        | some t => alInsert acc.prev_cpu key t
        | none => acc.prev_cpu }

/-- The inputs of one `tick` call: the clock readings, the enumeration
result, and whether the two database writes succeed. -/
structure TickInput where
  mono : ℚ
  ts : ℚ
  procs : List ProcInfo
  sample_write_ok : Bool
  mark_ok : Bool
deriving DecidableEq

/-- `tick` (lines 82–246): every call first rolls back any transaction left
open (lines 90–94); the first call only bootstraps (no commit — its upserts
stay uncommitted, faithful to `_bootstrap_baseline` having no commit). The
returned flag is `false` exactly when the call raises (failed batch write). -/
def tick (cfg : SamplerCfg) (st : SamplerState) (conn : Conn)
    (inp : TickInput) : Bool × SamplerState × Conn :=
  let conn := conn.rollback
  match st.last_mono with
  | none =>
    let acc := inp.procs.foldl (stepBootstrap inp.ts)
      ⟨conn.cur, st.procid, st.prev_cpu⟩
    (true,
      { st with procid := acc.procid, prev_cpu := acc.prev_cpu,
                last_mono := some inp.mono },
      { conn with cur := acc.db })
  | some lm =>
    steadyTick cfg st conn lm inp.mono inp.ts inp.procs
      inp.sample_write_ok inp.mark_ok

/-- A whole run: the state after folding `tick` over a list of tick inputs. -/
def runTicks (cfg : SamplerCfg) (sc : SamplerState × Conn)
    (inps : List TickInput) : SamplerState × Conn :=
  inps.foldl (fun sc inp => (tick cfg sc.1 sc.2 inp).2) sc

/-- A fresh sampler: empty maps and no previous tick (`__init__`). -/
def initState : SamplerState := ⟨[], [], [], none⟩

/-- A fresh database as `ensure_db` leaves it: empty tables, committed. -/
def initConn : Conn := ⟨⟨[], [], 1⟩, ⟨[], [], 1⟩⟩

/-! ### Duration and time-point parsing (`src/lps/utils.py`)

The regex is `^\s*(\d+(?:\.\d+)?)\s*([smhdSMHD])\s*$`; `\s` is modelled as
the ASCII whitespace class and `\d` as the ASCII digits (the claims at stake
involve only ASCII input). -/

/-- The `\s` character class: space, `\t`, `\n`, `\r`, `\x0b`, `\x0c`. -/
def isSpaceChar (c : Char) : Bool :=
  c == ' ' || c == '\t' || c == '\n' || c == '\r' ||
  c == Char.ofNat 11 || c == Char.ofNat 12

/-- The `[smhdSMHD]` character class. -/
def isUnitChar (c : Char) : Bool :=
  c == 's' || c == 'm' || c == 'h' || c == 'd' ||
  c == 'S' || c == 'M' || c == 'H' || c == 'D'

/-- Value of a digit string. -/
def natOfDigits (ds : List Char) : Nat :=
  ds.foldl (fun n c => n * 10 + (c.toNat - '0'.toNat)) 0

/-- `float(m.group(1))`: integer digits `ds` plus fractional digits `fd`. -/
def durValue (ds fd : List Char) : ℚ :=
  (natOfDigits ds : ℚ) + (natOfDigits fd : ℚ) / (10 : ℚ) ^ fd.length

/-- The unit branches of `parse_duration_to_seconds` (lines 27–35), applied
to `m.group(2).lower()`. -/
def unitScale (c : Char) : Option ℚ :=
  let l := c.toLower
  if l = 's' then some 1
  else if l = 'm' then some 60
  else if l = 'h' then some 3600
  else if l = 'd' then some 86400
  else none

/-- `parse_duration_to_seconds` (`utils.py` lines 11–36) on a character
list: regex match against `_DURATION_RE` then unit scaling; `none` models
the raised `ValueError`. -/
def parseDurationChars (cs : List Char) : Option ℚ :=
  let cs1 := cs.dropWhile isSpaceChar
  let ds := cs1.takeWhile Char.isDigit
  let rest1 := cs1.dropWhile Char.isDigit
  if ds.isEmpty then none
  else
    let frac : Option (List Char × List Char) :=
      match rest1 with
      | c :: r2 =>
        if c = '.' then
          let fd := r2.takeWhile Char.isDigit
          if fd.isEmpty then none else some (fd, r2.dropWhile Char.isDigit)
        else some ([], c :: r2)
      | [] => some ([], [])
    match frac with
    | none => none
    | some (fd, rest2) =>
      match rest2.dropWhile isSpaceChar with
      | [] => none
      | u :: tail =>
        if isUnitChar u && tail.all isSpaceChar then
          (unitScale u).map (fun sc => durValue ds fd * sc)
        else none

/-- `parse_duration_to_seconds` on a string. -/
def parseDurationToSeconds (s : String) : Option ℚ :=
  parseDurationChars s.data

/-- `str.strip()` over the modelled whitespace class. -/
def stripChars (cs : List Char) : List Char :=
  ((cs.dropWhile isSpaceChar).reverse.dropWhile isSpaceChar).reverse

/-- A bare decimal epoch number as accepted by Python's `float(s)`
(`utils.py` lines 59–62), restricted to optionally-signed plain decimals;
exotic float syntax (exponents, `inf`, `nan`) is not modelled — the claims
at stake never reach it. -/
def parseEpochChars (cs : List Char) : Option ℚ :=
  let signAndRest : ℚ × List Char :=
    match cs with
    | '-' :: r => (-1, r)
    | '+' :: r => (1, r)
    | r => (1, r)
  let ds := signAndRest.2.takeWhile Char.isDigit
  let rest := signAndRest.2.dropWhile Char.isDigit
  match rest with
  | [] => if ds.isEmpty then none else some (signAndRest.1 * natOfDigits ds)
  | '.' :: r2 =>
    let fd := r2.takeWhile Char.isDigit
    if r2.dropWhile Char.isDigit = [] ∧ ¬(ds.isEmpty ∧ fd.isEmpty) then
      some (signAndRest.1 * durValue ds fd)
    else none
  | _ => none

/-- `parse_time_point` (`utils.py` lines 39–81): strip + lowercase, then the
literal `now`, a duration meaning `now - duration`, or a numeric epoch. The
ISO-format branches (lines 66–79, via `datetime`) are not modelled and
yield `none`; theorems that quantify over resolvable time points restrict
to the modelled branches through their hypotheses. -/
def parseTimePoint (s : String) (now_ts : ℚ) : Option ℚ :=
  let cs := (stripChars s.data).map Char.toLower
  if cs = ['n', 'o', 'w'] then some now_ts
  else
    match parseDurationChars cs with
    | some dur => some (now_ts - dur)
    | none =>
      match parseEpochChars cs with
      | some x => some x
      | none => none

/-- The `since` operand resolution of `parse_since_until` (line 94): absent
or empty (falsy) takes the 24-hour default. -/
def resolveSince (spec : Option String) (now_ts : ℚ) : Option ℚ :=
  match spec with
  | none => some (now_ts - 86400)
  | some s => if s = "" then some (now_ts - 86400) else parseTimePoint s now_ts

/-- The `until` operand resolution of `parse_since_until` (line 95). -/
def resolveUntil (spec : Option String) (now_ts : ℚ) : Option ℚ :=
  match spec with
  | none => some now_ts
  | some s => if s = "" then some now_ts else parseTimePoint s now_ts

/-- `parse_since_until` (`utils.py` lines 84–98): resolve both operands,
fail (`none`, modelling the raised `ValueError`) when `until < since`. -/
def parseSinceUntil (since_spec until_spec : Option String) (now_ts : ℚ) :
    Option (ℚ × ℚ) :=
  match resolveSince since_spec now_ts, resolveUntil until_spec now_ts with
  | some a, some b => if b < a then none else some (a, b)
  | _, _ => none

/-! ### Character-class facts for the duration grammar -/

theorem space_not_digit {c : Char} (h : isSpaceChar c = true) :
    c.isDigit = false := by
  simp only [isSpaceChar, Bool.or_eq_true, beq_iff_eq] at h
  rcases h with ((((h | h) | h) | h) | h) | h <;> subst h <;> decide

theorem digit_not_space {c : Char} (h : c.isDigit = true) :
    isSpaceChar c = false := by
  cases hs : isSpaceChar c
  · rfl
  · rw [space_not_digit hs] at h
    exact absurd h (by simp)

theorem unit_not_digit {c : Char} (h : isUnitChar c = true) :
    c.isDigit = false := by
  simp only [isUnitChar, Bool.or_eq_true, beq_iff_eq] at h
  rcases h with ((((((h | h) | h) | h) | h) | h) | h) | h <;> subst h <;> decide

theorem unit_not_space {c : Char} (h : isUnitChar c = true) :
    isSpaceChar c = false := by
  simp only [isUnitChar, Bool.or_eq_true, beq_iff_eq] at h
  rcases h with ((((((h | h) | h) | h) | h) | h) | h) | h <;> subst h <;> decide

theorem space_ne_dot {c : Char} (h : isSpaceChar c = true) : c ≠ '.' := by
  simp only [isSpaceChar, Bool.or_eq_true, beq_iff_eq] at h
  rcases h with ((((h | h) | h) | h) | h) | h <;> subst h <;> decide

theorem unit_ne_dot {c : Char} (h : isUnitChar c = true) : c ≠ '.' := by
  simp only [isUnitChar, Bool.or_eq_true, beq_iff_eq] at h
  rcases h with ((((((h | h) | h) | h) | h) | h) | h) | h <;> subst h <;> decide

theorem unitScale_of_unit {c : Char} (h : isUnitChar c = true) :
    ∃ sc : ℚ, unitScale c = some sc := by
  simp only [isUnitChar, Bool.or_eq_true, beq_iff_eq] at h
  rcases h with ((((((h | h) | h) | h) | h) | h) | h) | h <;> subst h <;>
    exact ⟨_, rfl⟩

/-! ### List kit for the parser proofs -/

theorem dropWhile_all_append (p : Char → Bool) (l1 l2 : List Char)
    (h : ∀ c ∈ l1, p c = true) :
    (l1 ++ l2).dropWhile p = l2.dropWhile p := by
  induction l1 with
  | nil => rfl
  | cons a t ih =>
    simp only [List.cons_append, List.dropWhile_cons,
      h a (List.mem_cons_self a t), if_true]
    exact ih fun c hc => h c (List.mem_cons_of_mem a hc)

theorem dropWhile_cons_neg (p : Char → Bool) {b : Char} (l : List Char)
    (hb : p b = false) : (b :: l).dropWhile p = b :: l := by
  simp [List.dropWhile_cons, hb]

theorem takeWhile_all_append (p : Char → Bool) (l1 : List Char) {b : Char}
    (l2 : List Char) (h : ∀ c ∈ l1, p c = true) (hb : p b = false) :
    (l1 ++ b :: l2).takeWhile p = l1 := by
  induction l1 with
  | nil => simp [List.takeWhile_cons, hb]
  | cons a t ih =>
    simp only [List.cons_append, List.takeWhile_cons,
      h a (List.mem_cons_self a t), if_true]
    rw [ih fun c hc => h c (List.mem_cons_of_mem a hc)]

theorem dropWhile_all_append_cons (p : Char → Bool) (l1 : List Char)
    {b : Char} (l2 : List Char) (h : ∀ c ∈ l1, p c = true)
    (hb : p b = false) : (l1 ++ b :: l2).dropWhile p = b :: l2 := by
  rw [dropWhile_all_append p l1 _ h, dropWhile_cons_neg p l2 hb]

/-! ### The duration grammar, as the code implements it and as the spec
words it -/

/-- All characters are `\s` whitespace. -/
def AllSpace (l : List Char) : Prop := ∀ c ∈ l, isSpaceChar c = true

/-- All characters are decimal digits. -/
def AllDigit (l : List Char) : Prop := ∀ c ∈ l, c.isDigit = true

/-- The characters contributed by an optional fractional part with digits
`fd`: nothing, or a dot followed by at least one digit. -/
def fracChars (fd : List Char) : List Char :=
  if fd = [] then [] else '.' :: fd

/-- The duration token grammar matching the code's regex
`^\s*(\d+(?:\.\d+)?)\s*([smhdSMHD])\s*$`: whitespace is also permitted
between the number and the unit letter. -/
def DurTok (cs : List Char) (v : ℚ) : Prop :=
  ∃ ws1 ds fd ws2 u ws3 sc,
    cs = ws1 ++ ds ++ fracChars fd ++ ws2 ++ [u] ++ ws3 ∧
    AllSpace ws1 ∧ ds ≠ [] ∧ AllDigit ds ∧ AllDigit fd ∧
    AllSpace ws2 ∧ isUnitChar u = true ∧ AllSpace ws3 ∧
    unitScale u = some sc ∧ v = durValue ds fd * sc

/-- The duration grammar exactly as the specification words it: a decimal
number immediately followed by one unit letter, whitespace permitted only
around the whole token. -/
def SpecDurTok (cs : List Char) (v : ℚ) : Prop :=
  ∃ ws1 ds fd u ws3 sc,
    cs = ws1 ++ ds ++ fracChars fd ++ [u] ++ ws3 ∧
    AllSpace ws1 ∧ ds ≠ [] ∧ AllDigit ds ∧ AllDigit fd ∧
    isUnitChar u = true ∧ AllSpace ws3 ∧
    unitScale u = some sc ∧ v = durValue ds fd * sc

theorem takeWhile_digit_block (ds ws2 : List Char) (u : Char) (ws3 : List Char)
    (hds : AllDigit ds) (hws2 : AllSpace ws2) (hu : isUnitChar u = true) :
    (ds ++ (ws2 ++ (u :: ws3))).takeWhile Char.isDigit = ds ∧
    (ds ++ (ws2 ++ (u :: ws3))).dropWhile Char.isDigit = ws2 ++ (u :: ws3) := by
  cases ws2 with
  | nil =>
    simp only [List.nil_append]
    exact ⟨takeWhile_all_append _ _ _ hds (unit_not_digit hu),
      dropWhile_all_append_cons _ _ _ hds (unit_not_digit hu)⟩
  | cons w ws2 =>
    simp only [List.cons_append]
    have hw : Char.isDigit w = false :=
      space_not_digit (hws2 w (List.mem_cons_self w ws2))
    exact ⟨takeWhile_all_append _ _ _ hds hw,
      dropWhile_all_append_cons _ _ _ hds hw⟩

theorem durTok_of_parse {cs : List Char} {v : ℚ}
    (h : parseDurationChars cs = some v) : DurTok cs v := by
  simp only [parseDurationChars] at h
  cases hne : ((cs.dropWhile isSpaceChar).takeWhile Char.isDigit).isEmpty with
  | true => rw [hne] at h; simp at h
  | false =>
  rw [hne] at h
  simp only [Bool.false_eq_true, if_false] at h
  have hds_ne : (cs.dropWhile isSpaceChar).takeWhile Char.isDigit ≠ [] := by
    intro h0; rw [h0] at hne; simp at hne
  have e1 : cs = cs.takeWhile isSpaceChar ++ cs.dropWhile isSpaceChar :=
    (List.takeWhile_append_dropWhile isSpaceChar cs).symm
  have e2 : cs.dropWhile isSpaceChar =
      (cs.dropWhile isSpaceChar).takeWhile Char.isDigit ++
      (cs.dropWhile isSpaceChar).dropWhile Char.isDigit :=
    (List.takeWhile_append_dropWhile Char.isDigit _).symm
  cases hr1 : (cs.dropWhile isSpaceChar).dropWhile Char.isDigit with
  | nil => rw [hr1] at h; simp at h
  | cons c r2 =>
  rw [hr1] at h
  dsimp only [] at h
  by_cases hc : c = '.'
  · subst hc
    rw [if_pos rfl] at h
    cases hfd : (r2.takeWhile Char.isDigit).isEmpty with
    | true => rw [hfd] at h; simp at h
    | false =>
    rw [hfd] at h
    simp only [Bool.false_eq_true, if_false] at h
    have hfd_ne : r2.takeWhile Char.isDigit ≠ [] := by
      intro h0; rw [h0] at hfd; simp at hfd
    have e3 : r2 = r2.takeWhile Char.isDigit ++ r2.dropWhile Char.isDigit :=
      (List.takeWhile_append_dropWhile Char.isDigit r2).symm
    cases hr3 : (r2.dropWhile Char.isDigit).dropWhile isSpaceChar with
    | nil => rw [hr3] at h; simp at h
    | cons u tail =>
    rw [hr3] at h
    dsimp only [] at h
    cases hcond : (isUnitChar u && tail.all isSpaceChar) with
    | false => rw [hcond] at h; simp at h
    | true =>
    rw [hcond] at h
    simp only [if_true] at h
    obtain ⟨hu, htail⟩ := (Bool.and_eq_true _ _).mp hcond
    obtain ⟨sc, hsc, hv⟩ := Option.map_eq_some'.mp h
    have e4 : r2.dropWhile Char.isDigit =
        (r2.dropWhile Char.isDigit).takeWhile isSpaceChar ++ (u :: tail) := by
      conv_lhs => rw [← List.takeWhile_append_dropWhile isSpaceChar
        (r2.dropWhile Char.isDigit)]
      rw [hr3]
    refine ⟨cs.takeWhile isSpaceChar,
      (cs.dropWhile isSpaceChar).takeWhile Char.isDigit,
      r2.takeWhile Char.isDigit,
      (r2.dropWhile Char.isDigit).takeWhile isSpaceChar,
      u, tail, sc, ?_, ?_, hds_ne, ?_, ?_, ?_, hu, ?_, hsc, hv.symm⟩
    · rw [fracChars, if_neg hfd_ne]
      conv_lhs => rw [e1, e2, hr1]
      rw [e3]
      conv_lhs => rw [e4]
      simp [List.append_assoc]
    · exact fun x hx => List.mem_takeWhile_imp hx
    · exact fun x hx => List.mem_takeWhile_imp hx
    · exact fun x hx => List.mem_takeWhile_imp hx
    · exact fun x hx => List.mem_takeWhile_imp hx
    · exact fun x hx => List.all_eq_true.mp htail x hx
  · rw [if_neg hc] at h
    dsimp only [] at h
    cases hr3 : (c :: r2).dropWhile isSpaceChar with
    | nil => rw [hr3] at h; simp at h
    | cons u tail =>
    rw [hr3] at h
    dsimp only [] at h
    cases hcond : (isUnitChar u && tail.all isSpaceChar) with
    | false => rw [hcond] at h; simp at h
    | true =>
    rw [hcond] at h
    simp only [if_true] at h
    obtain ⟨hu, htail⟩ := (Bool.and_eq_true _ _).mp hcond
    obtain ⟨sc, hsc, hv⟩ := Option.map_eq_some'.mp h
    have e4 : (c :: r2) = (c :: r2).takeWhile isSpaceChar ++ (u :: tail) := by
      conv_lhs => rw [← List.takeWhile_append_dropWhile isSpaceChar (c :: r2)]
      rw [hr3]
    refine ⟨cs.takeWhile isSpaceChar,
      (cs.dropWhile isSpaceChar).takeWhile Char.isDigit,
      [], (c :: r2).takeWhile isSpaceChar,
      u, tail, sc, ?_, ?_, hds_ne, ?_, ?_, ?_, hu, ?_, hsc, hv.symm⟩
    · rw [fracChars, if_pos rfl]
      conv_lhs => rw [e1, e2, hr1]
      conv_lhs => rw [e4]
      simp [List.append_assoc]
    · exact fun x hx => List.mem_takeWhile_imp hx
    · exact fun x hx => List.mem_takeWhile_imp hx
    · exact fun x hx => by cases hx
    · exact fun x hx => List.mem_takeWhile_imp hx
    · exact fun x hx => List.all_eq_true.mp htail x hx

theorem parseDurationChars_eval (ws1 ds fd ws2 ws3 : List Char) (u : Char)
    (hws1 : AllSpace ws1) (hds_ne : ds ≠ []) (hdd : AllDigit ds)
    (hfdd : AllDigit fd) (hws2 : AllSpace ws2) (hu : isUnitChar u = true)
    (hws3 : AllSpace ws3) :
    parseDurationChars (ws1 ++ ds ++ fracChars fd ++ ws2 ++ [u] ++ ws3) =
      (unitScale u).map (fun sc => durValue ds fd * sc) := by
  obtain ⟨d, ds', rfl⟩ : ∃ d ds', ds = d :: ds' := by
    cases ds with
    | nil => exact absurd rfl hds_ne
    | cons d ds' => exact ⟨d, ds', rfl⟩
  have hassoc : ws1 ++ (d :: ds') ++ fracChars fd ++ ws2 ++ [u] ++ ws3 =
      ws1 ++ ((d :: ds') ++ (fracChars fd ++ (ws2 ++ (u :: ws3)))) := by
    simp [List.append_assoc]
  rw [hassoc]
  simp only [parseDurationChars]
  have e1 : (ws1 ++ ((d :: ds') ++ (fracChars fd ++ (ws2 ++ (u :: ws3))))).dropWhile
      isSpaceChar = (d :: ds') ++ (fracChars fd ++ (ws2 ++ (u :: ws3))) := by
    rw [List.cons_append]
    exact dropWhile_all_append_cons isSpaceChar ws1 _ hws1
      (digit_not_space (hdd d (List.mem_cons_self d ds')))
  rw [e1]
  have hallws3 : ws3.all isSpaceChar = true := List.all_eq_true.mpr hws3
  cases fd with
  | cons f fd' =>
    have hfr : fracChars (f :: fd') = '.' :: (f :: fd') := by
      rw [fracChars, if_neg (by simp)]
    rw [hfr]
    have e2 : ((d :: ds') ++ ('.' :: (f :: fd') ++ (ws2 ++ (u :: ws3)))).takeWhile
        Char.isDigit = d :: ds' := by
      rw [List.cons_append]
      exact takeWhile_all_append Char.isDigit (d :: ds') _ hdd (by decide)
    have e3 : ((d :: ds') ++ ('.' :: (f :: fd') ++ (ws2 ++ (u :: ws3)))).dropWhile
        Char.isDigit = '.' :: ((f :: fd') ++ (ws2 ++ (u :: ws3))) := by
      rw [List.cons_append]
      exact dropWhile_all_append_cons Char.isDigit (d :: ds') _ hdd (by decide)
    rw [e2, e3]
    simp only [List.isEmpty_cons, Bool.false_eq_true, if_false, if_true]
    obtain ⟨e4, e5⟩ := takeWhile_digit_block (f :: fd') ws2 u ws3 hfdd hws2 hu
    rw [e4, e5]
    simp only [List.isEmpty_cons, Bool.false_eq_true, if_false]
    rw [dropWhile_all_append_cons isSpaceChar ws2 ws3 hws2 (unit_not_space hu)]
    dsimp only []
    rw [hu, hallws3]
    simp
  | nil =>
    have hfr : fracChars ([] : List Char) = [] := by rw [fracChars, if_pos rfl]
    rw [hfr, List.nil_append]
    obtain ⟨e2, e3⟩ := takeWhile_digit_block (d :: ds') ws2 u ws3 hdd hws2 hu
    rw [e2, e3]
    simp only [List.isEmpty_cons, Bool.false_eq_true, if_false]
    cases ws2 with
    | nil =>
      simp only [List.nil_append]
      rw [if_neg (unit_ne_dot hu)]
      dsimp only []
      rw [dropWhile_cons_neg isSpaceChar ws3 (unit_not_space hu)]
      dsimp only []
      rw [hu, hallws3]
      simp
    | cons w ws2' =>
      simp only [List.cons_append]
      rw [if_neg (space_ne_dot (hws2 w (List.mem_cons_self w ws2')))]
      dsimp only []
      have e6 : (w :: (ws2' ++ u :: ws3)).dropWhile isSpaceChar = u :: ws3 := by
        rw [← List.cons_append]
        exact dropWhile_all_append_cons isSpaceChar (w :: ws2') ws3 hws2
          (unit_not_space hu)
      rw [e6]
      dsimp only []
      rw [hu, hallws3]
      simp

theorem durValue_two : durValue ['2'] [] = 2 := by
  simp [durValue, show natOfDigits ['2'] = 2 from by decide, natOfDigits]

theorem durValue_one : durValue ['1'] [] = 1 := by
  simp [durValue, show natOfDigits ['1'] = 1 from by decide, natOfDigits]

/-- C8 counterexample: the code accepts `"2 h"` (whitespace between the
number and the unit), but the claimed grammar — whitespace only around the
whole token — matches no value for it. -/
theorem duration_accepts_inner_space :
    parseDurationToSeconds "2 h" = some 7200 ∧
    ¬∃ v : ℚ, SpecDurTok "2 h".data v := by
  constructor
  · have h : parseDurationToSeconds "2 h" = some (durValue ['2'] [] * 3600) := rfl
    rw [h, durValue_two]; norm_num
  · rw [show "2 h".data = ['2', ' ', 'h'] from rfl]
    rintro ⟨v, ws1, ds, fd, u, ws3, sc, hcs, hws1, hds_ne, hdd, hfdd, hu, hws3,
      hsc, hv⟩
    cases ws1 with
    | cons a ws1t =>
      have ha : isSpaceChar a = true := hws1 a (List.mem_cons_self a ws1t)
      simp only [List.cons_append, List.cons.injEq] at hcs
      rw [← hcs.1] at ha
      exact absurd ha (by decide)
    | nil =>
      simp only [List.nil_append] at hcs
      cases ds with
      | nil => exact hds_ne rfl
      | cons d dst =>
        simp only [List.cons_append, List.cons.injEq] at hcs
        obtain ⟨hd2, hcs⟩ := hcs
        cases dst with
        | cons e dst2 =>
          have he : Char.isDigit e = true :=
            hdd e (List.mem_cons_of_mem d (List.mem_cons_self e dst2))
          simp only [List.cons_append, List.cons.injEq] at hcs
          rw [← hcs.1] at he
          exact absurd he (by decide)
        | nil =>
          simp only [List.nil_append] at hcs
          cases hfd : fd with
          | cons f fdt =>
            rw [hfd] at hcs
            rw [show fracChars (f :: fdt) = '.' :: (f :: fdt) from by
              rw [fracChars, if_neg (by simp)]] at hcs
            simp only [List.cons_append, List.cons.injEq] at hcs
            exact absurd hcs.1.symm (by decide)
          | nil =>
            rw [hfd] at hcs
            rw [show fracChars ([] : List Char) = [] from rfl,
              List.nil_append] at hcs
            simp only [List.cons_append, List.cons.injEq] at hcs
            rw [← hcs.1] at hu
            exact absurd hu (by decide)

/-- C8 (amended): duration parsing succeeds exactly on the regex grammar —
whitespace is also permitted between the number and the unit letter — with
the stated unit scaling; `"2h"` parses to 7200 and `"bad"` fails. -/
theorem duration_parse_iff_grammar :
    (∀ (s : String) (v : ℚ), parseDurationToSeconds s = some v ↔ DurTok s.data v) ∧
    parseDurationToSeconds "2h" = some 7200 ∧
    parseDurationToSeconds "bad" = none := by
  refine ⟨fun s v => ⟨fun h => durTok_of_parse h, fun h => ?_⟩, ?_, rfl⟩
  · obtain ⟨ws1, ds, fd, ws2, u, ws3, sc, hcs, hws1, hds_ne, hdd, hfdd, hws2,
      hu, hws3, hsc, hv⟩ := h
    unfold parseDurationToSeconds
    rw [hcs, parseDurationChars_eval ws1 ds fd ws2 ws3 u hws1 hds_ne hdd hfdd
      hws2 hu hws3, hsc, hv]
    rfl
  · have h : parseDurationToSeconds "2h" = some (durValue ['2'] [] * 3600) := rfl
    rw [h, durValue_two]; norm_num

/-- C9: window resolution succeeds with `(since, until)` exactly when the
resolved `until ≥ since` (equality valid), fails exactly when `until <
since`, and in particular `since="now"`, `until="1h"` always fails. -/
theorem window_valid_iff (since_spec until_spec : Option String)
    (now_ts a b : ℚ) (hs : resolveSince since_spec now_ts = some a)
    (hu : resolveUntil until_spec now_ts = some b) :
    (parseSinceUntil since_spec until_spec now_ts = some (a, b) ↔ a ≤ b) ∧
    (parseSinceUntil since_spec until_spec now_ts = none ↔ b < a) ∧
    (∀ now2 : ℚ, parseSinceUntil (some "now") (some "1h") now2 = none) := by
  refine ⟨?_, ?_, ?_⟩
  · unfold parseSinceUntil
    rw [hs, hu]
    dsimp only []
    by_cases hba : b < a
    · rw [if_pos hba]
      constructor
      · intro h; cases h
      · intro h; exact absurd hba (not_lt.mpr h)
    · rw [if_neg hba]
      exact ⟨fun _ => le_of_not_lt hba, fun _ => rfl⟩
  · unfold parseSinceUntil
    rw [hs, hu]
    dsimp only []
    by_cases hba : b < a
    · rw [if_pos hba]
      exact ⟨fun _ => hba, fun _ => rfl⟩
    · rw [if_neg hba]
      exact ⟨fun h => absurd h (by simp), fun h => absurd h hba⟩
  · intro now2
    have h1 : resolveSince (some "now") now2 = some now2 := rfl
    have h2 : resolveUntil (some "1h") now2 =
        some (now2 - durValue ['1'] [] * 3600) := rfl
    unfold parseSinceUntil
    rw [h1, h2, durValue_one]
    dsimp only []
    rw [if_pos (show now2 - 1 * 3600 < now2 by linarith)]

/-- Witness for `window_valid_iff`: `since="1h"`, `until="now"`, `now=5000`
resolve to `1400 ≤ 5000`, a valid window. -/
theorem window_valid_iff_witness :
    (parseSinceUntil (some "1h") (some "now") 5000 = some (1400, 5000) ↔
      (1400 : ℚ) ≤ 5000) ∧
    (parseSinceUntil (some "1h") (some "now") 5000 = none ↔
      (5000 : ℚ) < 1400) ∧
    (∀ now2 : ℚ, parseSinceUntil (some "now") (some "1h") now2 = none) :=
  window_valid_iff (some "1h") (some "now") 5000 1400 5000
    (by
      rw [show resolveSince (some "1h") 5000 =
        some (5000 - durValue ['1'] [] * 3600) from rfl, durValue_one]
      norm_num)
    rfl

/-! ### Upsert invariants (`insert_or_get_process_id`) -/

theorem matchKey_iff (pid : Int) (ct : ℚ) (r : ProcessRecord) :
    matchKey pid ct r = true ↔ r.pid = pid ∧ r.create_time = ct := by
  simp [matchKey]

/-- The `UNIQUE(pid, create_time)` constraint as a predicate on the table. -/
def DB.keysNodup (db : DB) : Prop :=
  (db.procs.map fun r => (r.pid, r.create_time)).Nodup

theorem upsertUpdate_key (r : ProcessRecord)
    (exe nm cmd user : Option String) (ppid : Option Int) (now_ts : ℚ)
    (pm : Bool) :
    (upsertUpdate r exe nm cmd user ppid now_ts pm).pid = r.pid ∧
    (upsertUpdate r exe nm cmd user ppid now_ts pm).create_time =
      r.create_time ∧
    (upsertUpdate r exe nm cmd user ppid now_ts pm).id = r.id :=
  ⟨rfl, rfl, rfl⟩

theorem find?_map_pres (p : ProcessRecord → Bool)
    (h : ProcessRecord → ProcessRecord) (hp : ∀ r, p (h r) = p r)
    (l : List ProcessRecord) : (l.map h).find? p = (l.find? p).map h := by
  induction l with
  | nil => rfl
  | cons a t ih =>
    cases hpa : p a with
    | true => simp [List.find?, hp a, hpa]
    | false => simp [List.find?, hp a, hpa, ih]

theorem match_unique {db : DB} (hwf : db.keysNodup) (pid : Int) (ct : ℚ)
    {r1 r2 : ProcessRecord} (h1 : r1 ∈ db.procs) (h2 : r2 ∈ db.procs)
    (m1 : matchKey pid ct r1 = true) (m2 : matchKey pid ct r2 = true) :
    r1 = r2 := by
  obtain ⟨p1, c1⟩ := (matchKey_iff pid ct r1).mp m1
  obtain ⟨p2, c2⟩ := (matchKey_iff pid ct r2).mp m2
  exact List.inj_on_of_nodup_map hwf h1 h2 (by rw [p1, c1, p2, c2])

theorem matchKey_upsertUpdate (pid : Int) (ct : ℚ)
    (exe nm cmd user : Option String) (ppid : Option Int) (now_ts : ℚ)
    (pm : Bool) (s : ProcessRecord) :
    matchKey pid ct
      (if matchKey pid ct s then upsertUpdate s exe nm cmd user ppid now_ts pm
       else s) = matchKey pid ct s := by
  by_cases hms : matchKey pid ct s = true
  · rw [if_pos hms, hms]
    obtain ⟨hp, hc⟩ := (matchKey_iff pid ct s).mp hms
    exact (matchKey_iff pid ct _).mpr ⟨hp, hc⟩
  · rw [if_neg hms]

theorem upsert_keysNodup (db : DB) (pid : Int) (ct : ℚ)
    (exe nm cmd user : Option String) (ppid : Option Int) (now_ts : ℚ)
    (pm : Bool) (hwf : db.keysNodup) :
    ((insertOrGetProcessId db pid ct exe nm cmd user ppid now_ts pm).2).keysNodup := by
  unfold insertOrGetProcessId
  cases hany : db.procs.any (matchKey pid ct) with
  | true =>
    simp only [hany, if_true]
    unfold DB.keysNodup at hwf ⊢
    simp only [List.map_map]
    have he : ((fun r => (r.pid, r.create_time)) ∘ fun r =>
        if matchKey pid ct r then
          upsertUpdate r exe nm cmd user ppid now_ts pm
        else r) = fun r : ProcessRecord => (r.pid, r.create_time) := by
      funext s
      by_cases hms : matchKey pid ct s = true
      · simp only [Function.comp, if_pos hms]
        obtain ⟨hp, hc⟩ := (matchKey_iff pid ct s).mp hms
        simp [upsertUpdate, hp, hc]
      · simp [Function.comp, hms]
    rw [he]
    exact hwf
  | false =>
    simp only [hany, Bool.false_eq_true, if_false]
    unfold DB.keysNodup at hwf ⊢
    simp only [List.map_append, List.map_cons, List.map_nil]
    rw [List.nodup_append]
    refine ⟨hwf, List.nodup_singleton _, ?_⟩
    intro x hx hx2
    simp only [List.mem_singleton] at hx2
    obtain ⟨r, hr, hkey⟩ := List.mem_map.mp hx
    rw [hx2] at hkey
    simp only [Prod.mk.injEq] at hkey
    have hm : matchKey pid ct r = true := (matchKey_iff pid ct r).mpr hkey
    have hcontra := List.any_eq_true.mpr ⟨r, hr, hm⟩
    rw [hany] at hcontra
    exact absurd hcontra (by simp)

theorem upsert_unique_record (db : DB) (pid : Int) (ct : ℚ)
    (exe nm cmd user : Option String) (ppid : Option Int) (now_ts : ℚ)
    (pm : Bool) (hwf : db.keysNodup) :
    ∃ r' ∈ (insertOrGetProcessId db pid ct exe nm cmd user ppid now_ts pm).2.procs,
      r'.pid = pid ∧ r'.create_time = ct ∧ r'.last_seen = now_ts ∧
      ∀ r'' ∈ (insertOrGetProcessId db pid ct exe nm cmd user ppid now_ts pm).2.procs,
        r''.pid = pid → r''.create_time = ct → r'' = r' := by
  unfold insertOrGetProcessId
  cases hany : db.procs.any (matchKey pid ct) with
  | true =>
    simp only [hany, if_true]
    obtain ⟨r0, hr0, hm0⟩ := List.any_eq_true.mp hany
    obtain ⟨hp0, hc0⟩ := (matchKey_iff pid ct r0).mp hm0
    refine ⟨upsertUpdate r0 exe nm cmd user ppid now_ts pm, ?_, hp0, hc0, rfl, ?_⟩
    · exact List.mem_map.mpr ⟨r0, hr0, by rw [if_pos hm0]⟩
    · intro r'' hr'' hp'' hc''
      obtain ⟨s, hs, hgs⟩ := List.mem_map.mp hr''
      by_cases hms : matchKey pid ct s = true
      · have : s = r0 := match_unique hwf pid ct hs hr0 hms hm0
        rw [← hgs, if_pos hms, this]
      · rw [if_neg hms] at hgs
        rw [← hgs] at hp'' hc''
        exact absurd ((matchKey_iff pid ct s).mpr ⟨hp'', hc''⟩) hms
  | false =>
    simp only [hany, Bool.false_eq_true, if_false]
    refine ⟨_, List.mem_append_right _ (List.mem_singleton_self _), rfl, rfl, rfl, ?_⟩
    intro r'' hr'' hp'' hc''
    rcases List.mem_append.mp hr'' with hl | hr
    · have hm : matchKey pid ct r'' = true := (matchKey_iff pid ct r'').mpr ⟨hp'', hc''⟩
      have hcontra := List.any_eq_true.mpr ⟨r'', hl, hm⟩
      rw [hany] at hcontra
      exact absurd hcontra (by simp)
    · exact List.mem_singleton.mp hr

theorem upsert_existing (db : DB) (pid : Int) (ct : ℚ)
    (exe nm cmd user : Option String) (ppid : Option Int) (now_ts : ℚ)
    (pm : Bool) (hwf : db.keysNodup) (r : ProcessRecord) (hr : r ∈ db.procs)
    (hm : matchKey pid ct r = true) :
    upsertUpdate r exe nm cmd user ppid now_ts pm ∈
      (insertOrGetProcessId db pid ct exe nm cmd user ppid now_ts pm).2.procs ∧
    (insertOrGetProcessId db pid ct exe nm cmd user ppid now_ts pm).1 = r.id := by
  have hany : db.procs.any (matchKey pid ct) = true :=
    List.any_eq_true.mpr ⟨r, hr, hm⟩
  unfold insertOrGetProcessId
  simp only [hany, if_true]
  constructor
  · exact List.mem_map.mpr ⟨r, hr, by rw [if_pos hm]⟩
  · rw [find?_map_pres (matchKey pid ct) _
      (fun s => matchKey_upsertUpdate pid ct exe nm cmd user ppid now_ts pm s)]
    cases hf : db.procs.find? (matchKey pid ct) with
    | none =>
      have := List.find?_eq_none.mp hf r hr
      rw [hm] at this
      exact absurd rfl this
    | some r0 =>
      have hr0 : r0 ∈ db.procs := List.mem_of_find?_eq_some hf
      have hm0 : matchKey pid ct r0 = true := List.find?_some hf
      have : r0 = r := match_unique hwf pid ct hr0 hr hm0 hm
      rw [this]
      simp only [Option.map_some', if_pos hm]
      rfl

theorem upsert_preserves_nonmatching (db : DB) (pid : Int) (ct : ℚ)
    (exe nm cmd user : Option String) (ppid : Option Int) (now_ts : ℚ)
    (pm : Bool) (r : ProcessRecord) (hr : r ∈ db.procs)
    (hm : matchKey pid ct r = false) :
    r ∈ (insertOrGetProcessId db pid ct exe nm cmd user ppid now_ts pm).2.procs := by
  unfold insertOrGetProcessId
  cases hany : db.procs.any (matchKey pid ct) with
  | true =>
    simp only [hany, if_true]
    exact List.mem_map.mpr ⟨r, hr, by rw [if_neg (by rw [hm]; simp)]⟩
  | false =>
    simp only [hany, Bool.false_eq_true, if_false]
    exact List.mem_append_left _ hr

theorem upsertUpdate_coalesce (r : ProcessRecord)
    (exe nm cmd user : Option String) (ppid : Option Int) (now_ts : ℚ)
    (pm : Bool) :
    (upsertUpdate r exe nm cmd user ppid now_ts pm).last_seen = now_ts ∧
    (upsertUpdate r exe nm cmd user ppid now_ts pm).first_seen = r.first_seen ∧
    (upsertUpdate r exe nm cmd user ppid now_ts pm).ended = r.ended ∧
    (∀ v, r.exe_path = some v →
      (upsertUpdate r exe nm cmd user ppid now_ts pm).exe_path = some v) ∧
    (r.exe_path = none →
      (upsertUpdate r exe nm cmd user ppid now_ts pm).exe_path = exe) ∧
    (∀ v, r.name = some v →
      (upsertUpdate r exe nm cmd user ppid now_ts pm).name = some v) ∧
    (r.name = none → (upsertUpdate r exe nm cmd user ppid now_ts pm).name = nm) ∧
    (∀ v, r.cmdline = some v →
      (upsertUpdate r exe nm cmd user ppid now_ts pm).cmdline = some v) ∧
    (r.cmdline = none →
      (upsertUpdate r exe nm cmd user ppid now_ts pm).cmdline = cmd) ∧
    (∀ v, r.username = some v →
      (upsertUpdate r exe nm cmd user ppid now_ts pm).username = some v) ∧
    (r.username = none →
      (upsertUpdate r exe nm cmd user ppid now_ts pm).username = user) ∧
    (∀ v, r.ppid = some v →
      (upsertUpdate r exe nm cmd user ppid now_ts pm).ppid = some v) ∧
    (r.ppid = none → (upsertUpdate r exe nm cmd user ppid now_ts pm).ppid = ppid) := by
  refine ⟨rfl, rfl, rfl, ?_, ?_, ?_, ?_, ?_, ?_, ?_, ?_, ?_, ?_⟩ <;>
    first
      | (intro v hv; simp [upsertUpdate, hv, Option.or])
      | (intro hv; simp [upsertUpdate, hv, Option.or])

/-- The per-call contract of `insert_or_get_process_id` asserted by the
spec: key uniqueness is preserved; there is exactly one record for the
upserted key with `last_seen` advanced; records with the same pid but a
different creation time survive distinct; an existing record is updated by
the coalesce rule only. -/
def UpsertContract (db : DB) (pid : Int) (ct : ℚ)
    (exe nm cmd user : Option String) (ppid : Option Int) (now_ts : ℚ)
    (pm : Bool) : Prop :=
  ((insertOrGetProcessId db pid ct exe nm cmd user ppid now_ts pm).2).keysNodup ∧
  (∃ r' ∈ (insertOrGetProcessId db pid ct exe nm cmd user ppid now_ts pm).2.procs,
    r'.pid = pid ∧ r'.create_time = ct ∧ r'.last_seen = now_ts ∧
    ∀ r'' ∈ (insertOrGetProcessId db pid ct exe nm cmd user ppid now_ts pm).2.procs,
      r''.pid = pid → r''.create_time = ct → r'' = r') ∧
  (∀ r ∈ db.procs, r.pid = pid → r.create_time ≠ ct →
    r ∈ (insertOrGetProcessId db pid ct exe nm cmd user ppid now_ts pm).2.procs ∧
    ∀ r2 ∈ (insertOrGetProcessId db pid ct exe nm cmd user ppid now_ts pm).2.procs,
      r2.create_time = ct → r ≠ r2) ∧
  (∀ r ∈ db.procs, matchKey pid ct r = true →
    upsertUpdate r exe nm cmd user ppid now_ts pm ∈
      (insertOrGetProcessId db pid ct exe nm cmd user ppid now_ts pm).2.procs ∧
    (insertOrGetProcessId db pid ct exe nm cmd user ppid now_ts pm).1 = r.id ∧
    ((upsertUpdate r exe nm cmd user ppid now_ts pm).last_seen = now_ts ∧
     (upsertUpdate r exe nm cmd user ppid now_ts pm).first_seen = r.first_seen ∧
     (upsertUpdate r exe nm cmd user ppid now_ts pm).ended = r.ended ∧
     (∀ v, r.exe_path = some v →
       (upsertUpdate r exe nm cmd user ppid now_ts pm).exe_path = some v) ∧
     (r.exe_path = none →
       (upsertUpdate r exe nm cmd user ppid now_ts pm).exe_path = exe) ∧
     (∀ v, r.name = some v →
       (upsertUpdate r exe nm cmd user ppid now_ts pm).name = some v) ∧
     (r.name = none → (upsertUpdate r exe nm cmd user ppid now_ts pm).name = nm) ∧
     (∀ v, r.cmdline = some v →
       (upsertUpdate r exe nm cmd user ppid now_ts pm).cmdline = some v) ∧
     (r.cmdline = none →
       (upsertUpdate r exe nm cmd user ppid now_ts pm).cmdline = cmd) ∧
     (∀ v, r.username = some v →
       (upsertUpdate r exe nm cmd user ppid now_ts pm).username = some v) ∧
     (r.username = none →
       (upsertUpdate r exe nm cmd user ppid now_ts pm).username = user) ∧
     (∀ v, r.ppid = some v →
       (upsertUpdate r exe nm cmd user ppid now_ts pm).ppid = some v) ∧
     (r.ppid = none → (upsertUpdate r exe nm cmd user ppid now_ts pm).ppid = ppid)))

/-- C5: the process upsert maintains exactly one `ProcessRecord` per
`(pid, creation_time)` key — same pid with different creation times stays
two distinct records — and updating an existing record only fills
previously-null metadata fields (exe_path, name, cmdline, username, ppid),
never overwriting a known value, while `last_seen` is always set to the
supplied timestamp. -/
theorem process_upsert_contract (db : DB) (pid : Int) (ct : ℚ)
    (exe nm cmd user : Option String) (ppid : Option Int) (now_ts : ℚ)
    (pm : Bool) (hwf : db.keysNodup) :
    UpsertContract db pid ct exe nm cmd user ppid now_ts pm := by
  refine ⟨upsert_keysNodup db pid ct exe nm cmd user ppid now_ts pm hwf,
    upsert_unique_record db pid ct exe nm cmd user ppid now_ts pm hwf, ?_, ?_⟩
  · intro r hr hp hc
    have hm : matchKey pid ct r = false := by
      cases hmb : matchKey pid ct r with
      | false => rfl
      | true => exact absurd ((matchKey_iff pid ct r).mp hmb).2 hc
    refine ⟨upsert_preserves_nonmatching db pid ct exe nm cmd user ppid
      now_ts pm r hr hm, ?_⟩
    intro r2 _ hc2 heq
    rw [heq] at hc
    exact hc hc2
  · intro r hr hm
    obtain ⟨hmem, hid⟩ := upsert_existing db pid ct exe nm cmd user ppid
      now_ts pm hwf r hr hm
    exact ⟨hmem, hid, upsertUpdate_coalesce r exe nm cmd user ppid now_ts pm⟩

/-- A one-row table used to witness the upsert contract. -/
def dbC5 : DB :=
  ⟨[⟨1, 1, 0, none, some "a", none, none, none, 50, 50, 0, false⟩], [], 2⟩

/-- Witness for `process_upsert_contract`: a pid-reuse upsert (same pid 1,
creation time 5 instead of 0) into a well-formed one-row table. -/
theorem process_upsert_contract_witness :
    dbC5.keysNodup ∧
    UpsertContract dbC5 1 5 (some "/x") none none none none 60 false :=
  ⟨by simp [dbC5, DB.keysNodup],
   process_upsert_contract dbC5 1 5 (some "/x") none none none none 60 false
     (by simp [dbC5, DB.keysNodup])⟩

/-! ### Facts about the enumeration fold of a tick -/

theorem insertOrGet_samples (db : DB) (pid : Int) (ct : ℚ)
    (exe nm cmd user : Option String) (ppid : Option Int) (now_ts : ℚ)
    (pm : Bool) :
    (insertOrGetProcessId db pid ct exe nm cmd user ppid now_ts pm).2.samples =
      db.samples := by
  unfold insertOrGetProcessId
  cases hany : db.procs.any (matchKey pid ct) <;> simp [hany]

theorem stepProc_samples (cfg : SamplerCfg) (prev : List (ProcKey × ℚ))
    (dt ts : ℚ) (acc : TickAcc) (p : ProcInfo) :
    (stepProc cfg prev dt ts acc p).db.samples = acc.db.samples := by
  unfold stepProc
  cases resolveKey p with
  | none => rfl
  | some key => exact insertOrGet_samples ..

theorem foldProc_samples (cfg : SamplerCfg) (prev : List (ProcKey × ℚ))
    (dt ts : ℚ) (procs : List ProcInfo) (acc : TickAcc) :
    (procs.foldl (stepProc cfg prev dt ts) acc).db.samples =
      acc.db.samples := by
  induction procs generalizing acc with
  | nil => rfl
  | cons p t ih => rw [List.foldl_cons, ih, stepProc_samples]

theorem stepBootstrap_samples (ts : ℚ) (acc : BootAcc) (p : ProcInfo) :
    (stepBootstrap ts acc p).db.samples = acc.db.samples := by
  unfold stepBootstrap
  cases resolveKey p with
  | none => rfl
  | some key => exact insertOrGet_samples ..

theorem foldBoot_samples (ts : ℚ) (procs : List ProcInfo) (acc : BootAcc) :
    (procs.foldl (stepBootstrap ts) acc).db.samples = acc.db.samples := by
  induction procs generalizing acc with
  | nil => rfl
  | cons p t ih => rw [List.foldl_cons, ih, stepBootstrap_samples]

theorem markProcessEnded_samples (db : DB) (ids : List Nat) (ts : ℚ) :
    (markProcessEnded db ids ts).samples = db.samples := rfl

/-- Every row accumulated by the enumeration fold is either inherited from
the accumulator or is the `sampleOf` row of some enumerated process with a
resolvable key. -/
theorem foldProc_rows_mem (cfg : SamplerCfg) (prev : List (ProcKey × ℚ))
    (dt ts : ℚ) (procs : List ProcInfo) (acc : TickAcc) :
    ∀ row ∈ (procs.foldl (stepProc cfg prev dt ts) acc).rows,
      row ∈ acc.rows ∨ ∃ p ∈ procs, ∃ key i, resolveKey p = some key ∧
        row = sampleOf cfg prev dt ts key i p := by
  induction procs generalizing acc with
  | nil => exact fun row h => Or.inl h
  | cons p t ih =>
    intro row h
    rw [List.foldl_cons] at h
    rcases ih (stepProc cfg prev dt ts acc p) row h with
      hacc | ⟨q, hq, key, i, hk, hrow⟩
    · unfold stepProc at hacc
      cases hk : resolveKey p with
      | none => rw [hk] at hacc; exact Or.inl hacc
      | some key =>
        rw [hk] at hacc
        dsimp only [] at hacc
        rcases List.mem_append.mp hacc with h1 | h2
        · exact Or.inl h1
        · exact Or.inr ⟨p, List.mem_cons_self p t, key, _, hk,
            List.mem_singleton.mp h2⟩
    · exact Or.inr ⟨q, List.mem_cons_of_mem p hq, key, i, hk, hrow⟩

/-! ### Per-row facts of `sampleOf` -/

theorem sampleOf_fields (cfg : SamplerCfg) (prev : List (ProcKey × ℚ))
    (dt ts : ℚ) (key : ProcKey) (i : Nat) (p : ProcInfo) :
    (sampleOf cfg prev dt ts key i p).dt_s = dt ∧
    (sampleOf cfg prev dt ts key i p).eff_cores =
      effCores (sampleOf cfg prev dt ts key i p).delta_cpu_s dt cfg.cpu_count ∧
    (sampleOf cfg prev dt ts key i p).active =
      activeFlag (sampleOf cfg prev dt ts key i p).delta_cpu_s
        cfg.active_threshold dt :=
  ⟨rfl, rfl, rfl⟩

theorem deltaCpu_nonneg (pt tc : Option ℚ) : 0 ≤ deltaCpu pt tc := by
  unfold deltaCpu
  rcases pt with _ | pv <;> rcases tc with _ | t <;> simp [le_max_left]

theorem sampleOf_delta_nonneg (cfg : SamplerCfg) (prev : List (ProcKey × ℚ))
    (dt ts : ℚ) (key : ProcKey) (i : Nat) (p : ProcInfo) :
    0 ≤ (sampleOf cfg prev dt ts key i p).delta_cpu_s :=
  deltaCpu_nonneg ..

theorem sampleOf_delta_cases (cfg : SamplerCfg) (prev : List (ProcKey × ℚ))
    (dt ts : ℚ) (key : ProcKey) (i : Nat) (p : ProcInfo) :
    (∃ t pv, cpuTotalSeconds p.cpu_times = some t ∧
      alLookup prev key = some pv ∧
      (sampleOf cfg prev dt ts key i p).delta_cpu_s = max 0 (t - pv)) ∨
    ((cpuTotalSeconds p.cpu_times = none ∨ alLookup prev key = none) ∧
      (sampleOf cfg prev dt ts key i p).delta_cpu_s = 0) := by
  unfold sampleOf
  rcases htc : cpuTotalSeconds p.cpu_times with _ | t
  · exact Or.inr ⟨Or.inl rfl, rfl⟩
  · rcases hpv : alLookup prev key with _ | pv
    · exact Or.inr ⟨Or.inr rfl, by simp [deltaCpu]⟩
    · exact Or.inl ⟨t, pv, rfl, rfl, by simp [deltaCpu]⟩

theorem effCores_le (delta dt : ℚ) (n : Nat) :
    effCores delta dt n ≤ (n : ℚ) * (3 / 2) :=
  min_le_right _ _

theorem effCores_eq_of_pos (delta dt : ℚ) (n : Nat) (h : 0 < dt) :
    effCores delta dt n = min (delta / dt) ((n : ℚ) * (3 / 2)) := by
  unfold effCores
  rw [if_pos h]

theorem activeFlag_eq_one_iff (delta thr dt : ℚ) :
    activeFlag delta thr dt = 1 ↔ thr * dt ≤ delta := by
  unfold activeFlag
  split_ifs with h
  · exact ⟨fun _ => h, fun _ => rfl⟩
  · exact ⟨fun h0 => absurd h0 (by simp), fun hc => absurd hc h⟩

/-! ### Sample invariants over whole runs -/

/-- One `tick` preserves any per-row predicate `P` that holds of every
`sampleOf` row built with a clamped `dt`. -/
theorem tick_samples_inv (P : Sample → Prop) (cfg : SamplerCfg)
    (hP : ∀ prev dt ts key i p, 1 / 4 ≤ dt → dt ≤ 5 →
      P (sampleOf cfg prev dt ts key i p))
    (st : SamplerState) (conn : Conn) (inp : TickInput)
    (_hcur : ∀ s ∈ conn.cur.samples, P s)
    (hcom : ∀ s ∈ conn.committed.samples, P s) :
    (∀ s ∈ (tick cfg st conn inp).2.2.cur.samples, P s) ∧
    (∀ s ∈ (tick cfg st conn inp).2.2.committed.samples, P s) := by
  unfold tick
  cases st.last_mono with
  | none =>
    dsimp only [Conn.rollback]
    constructor
    · intro s hs
      rw [foldBoot_samples] at hs
      exact hcom s hs
    · exact hcom
  | some lm =>
    dsimp only [Conn.rollback]
    unfold steadyTick
    by_cases hwok : inp.sample_write_ok = true
    case neg =>
      rw [if_neg hwok]
      exact ⟨hcom, hcom⟩
    case pos =>
      rw [if_pos hwok]
      have hdtlo : (1 : ℚ) / 4 ≤ clamp (inp.mono - lm) (1 / 4) 5 :=
        le_clamp _ _ _ (by norm_num)
      have hdthi : clamp (inp.mono - lm) (1 / 4) 5 ≤ 5 :=
        clamp_le _ _ _ (by norm_num)
      have hrows : ∀ s ∈ ({ cur := conn.committed, committed := conn.committed : Conn}.cur.samples), P s := hcom
      -- the freshly committed connection after the batched write
      have hall : ∀ s ∈ ((inp.procs.foldl
          (stepProc cfg st.prev_cpu (clamp (inp.mono - lm) (1 / 4) 5) inp.ts)
          ⟨conn.committed, st.procid, [], []⟩).db.samples ++
          (inp.procs.foldl
          (stepProc cfg st.prev_cpu (clamp (inp.mono - lm) (1 / 4) 5) inp.ts)
          ⟨conn.committed, st.procid, [], []⟩).rows), P s := by
        intro s hs
        rcases List.mem_append.mp hs with h1 | h2
        · rw [foldProc_samples] at h1
          exact hcom s h1
        · rcases foldProc_rows_mem cfg st.prev_cpu _ inp.ts inp.procs
            ⟨conn.committed, st.procid, [], []⟩ s h2 with hemp | ⟨p, _, key, i, _, hrow⟩
          · cases hemp
          · rw [hrow]
            exact hP _ _ _ _ _ _ hdtlo hdthi
      unfold handleMissingAndEnded
      dsimp only [Conn.commit]
      split_ifs with h1 h2
      · exact ⟨hall, hall⟩
      · constructor
        · intro s hs
          rw [show (markProcessEnded _ _ _).samples = _ from
            markProcessEnded_samples ..] at hs
          exact hall s hs
        · intro s hs
          rw [show (markProcessEnded _ _ _).samples = _ from
            markProcessEnded_samples ..] at hs
          exact hall s hs
      · exact ⟨hall, hall⟩

/-- A whole run preserves any per-row predicate `P` that holds of every
`sampleOf` row with clamped `dt`. -/
theorem runTicks_samples_inv (P : Sample → Prop) (cfg : SamplerCfg)
    (hP : ∀ prev dt ts key i p, 1 / 4 ≤ dt → dt ≤ 5 →
      P (sampleOf cfg prev dt ts key i p))
    (inps : List TickInput) (st : SamplerState) (conn : Conn)
    (hcur : ∀ s ∈ conn.cur.samples, P s)
    (hcom : ∀ s ∈ conn.committed.samples, P s) :
    (∀ s ∈ (runTicks cfg (st, conn) inps).2.cur.samples, P s) ∧
    (∀ s ∈ (runTicks cfg (st, conn) inps).2.committed.samples, P s) := by
  induction inps generalizing st conn with
  | nil => exact ⟨hcur, hcom⟩
  | cons inp t ih =>
    unfold runTicks
    rw [List.foldl_cons]
    obtain ⟨h1, h2⟩ := tick_samples_inv P cfg hP st conn inp hcur hcom
    exact ih _ _ h1 h2

/-- On a successful steady tick, the connection's samples afterwards are the
previous samples plus exactly the rows accumulated by the enumeration. -/
theorem steadyTick_cur_samples (cfg : SamplerCfg) (st : SamplerState)
    (conn : Conn) (lm mono ts : ℚ) (procs : List ProcInfo) (mok : Bool) :
    (steadyTick cfg st conn lm mono ts procs true mok).2.2.cur.samples =
      conn.cur.samples ++
      (procs.foldl (stepProc cfg st.prev_cpu (clamp (mono - lm) (1 / 4) 5) ts)
        ⟨conn.cur, st.procid, [], []⟩).rows := by
  unfold steadyTick
  rw [if_pos rfl]
  unfold handleMissingAndEnded
  dsimp only [Conn.commit]
  split_ifs with h1 h2
  · dsimp only []
    rw [foldProc_samples]
  · dsimp only []
    rw [markProcessEnded_samples, foldProc_samples]
  · dsimp only [Conn.rollback]
    rw [foldProc_samples]


theorem stepProc_rows_mono (cfg : SamplerCfg) (prev : List (ProcKey × ℚ))
    (dt ts : ℚ) (acc : TickAcc) (p : ProcInfo) :
    ∀ r ∈ acc.rows, r ∈ (stepProc cfg prev dt ts acc p).rows := by
  unfold stepProc
  cases resolveKey p with
  | none => exact fun r h => h
  | some key => exact fun r h => List.mem_append_left _ h

theorem foldProc_rows_mono (cfg : SamplerCfg) (prev : List (ProcKey × ℚ))
    (dt ts : ℚ) (procs : List ProcInfo) (acc : TickAcc) :
    ∀ r ∈ acc.rows, r ∈ (procs.foldl (stepProc cfg prev dt ts) acc).rows := by
  induction procs generalizing acc with
  | nil => exact fun r h => h
  | cons p t ih =>
    intro r h
    rw [List.foldl_cons]
    exact ih _ r (stepProc_rows_mono cfg prev dt ts acc p r h)

/-- Every enumerated process with a resolvable key contributes a `sampleOf`
row to the enumeration fold. -/
theorem foldProc_rows_exists (cfg : SamplerCfg) (prev : List (ProcKey × ℚ))
    (dt ts : ℚ) (procs : List ProcInfo) (acc : TickAcc) :
    ∀ p ∈ procs, ∀ key, resolveKey p = some key →
      ∃ i, sampleOf cfg prev dt ts key i p ∈
        (procs.foldl (stepProc cfg prev dt ts) acc).rows := by
  induction procs generalizing acc with
  | nil => intro p h; cases h
  | cons q t ih =>
    intro p hp key hk
    rw [List.foldl_cons]
    rcases List.mem_cons.mp hp with rfl | hmem
    · refine ⟨(insertOrGetProcessId acc.db key.1 key.2 (safeStr p.exe)
        (safeStr p.name) (cmdlineStr p.cmdline) (safeStr p.username) p.ppid
        ts (tickPartialMeta p)).1, ?_⟩
      apply foldProc_rows_mono
      unfold stepProc
      rw [hk]
      exact List.mem_append_right _ (List.mem_singleton_self _)
    · exact ih _ p hmem key hk

/-- C1: on every steady tick, every Sample row written has
`delta_cpu_s = max(0, current − previous)` when a baseline exists and the
current cumulative CPU time is readable, and `0` otherwise; consequently
`delta_cpu_s ≥ 0` in every sample row ever written over any run. -/
theorem delta_cpu_contract :
    (∀ (cfg : SamplerCfg) (st : SamplerState) (conn : Conn)
        (lm mono ts : ℚ) (procs : List ProcInfo) (mok : Bool),
      ∀ row ∈ (steadyTick cfg st conn lm mono ts procs true mok).2.2.cur.samples,
        row ∈ conn.cur.samples ∨
        ∃ p ∈ procs, ∃ key i, resolveKey p = some key ∧
          row = sampleOf cfg st.prev_cpu (clamp (mono - lm) (1 / 4) 5) ts key i p ∧
          0 ≤ row.delta_cpu_s ∧
          ((∃ t pv, cpuTotalSeconds p.cpu_times = some t ∧
              alLookup st.prev_cpu key = some pv ∧
              row.delta_cpu_s = max 0 (t - pv)) ∨
           ((cpuTotalSeconds p.cpu_times = none ∨
              alLookup st.prev_cpu key = none) ∧
            row.delta_cpu_s = 0))) ∧
    (∀ (cfg : SamplerCfg) (st : SamplerState) (conn : Conn)
        (lm mono ts : ℚ) (procs : List ProcInfo) (mok : Bool),
      ∀ p ∈ procs, ∀ key, resolveKey p = some key →
        ∃ i, sampleOf cfg st.prev_cpu (clamp (mono - lm) (1 / 4) 5) ts key i p ∈
          (steadyTick cfg st conn lm mono ts procs true mok).2.2.cur.samples) ∧
    (∀ (cfg : SamplerCfg) (st : SamplerState) (conn : Conn)
        (inps : List TickInput),
      (∀ s ∈ conn.cur.samples, 0 ≤ s.delta_cpu_s) →
      (∀ s ∈ conn.committed.samples, 0 ≤ s.delta_cpu_s) →
      ∀ s ∈ (runTicks cfg (st, conn) inps).2.cur.samples,
        0 ≤ s.delta_cpu_s) := by
  refine ⟨?_, ?_, ?_⟩
  · intro cfg st conn lm mono ts procs mok row hrow
    rw [steadyTick_cur_samples] at hrow
    rcases List.mem_append.mp hrow with h1 | h2
    · exact Or.inl h1
    · rcases foldProc_rows_mem cfg st.prev_cpu _ ts procs
        ⟨conn.cur, st.procid, [], []⟩ row h2 with hemp | ⟨p, hp, key, i, hk, hr⟩
      · cases hemp
      · refine Or.inr ⟨p, hp, key, i, hk, hr, ?_, ?_⟩
        · rw [hr]; exact sampleOf_delta_nonneg ..
        · rw [hr]; exact sampleOf_delta_cases ..
  · intro cfg st conn lm mono ts procs mok p hp key hk
    obtain ⟨i, hi⟩ := foldProc_rows_exists cfg st.prev_cpu
      (clamp (mono - lm) (1 / 4) 5) ts procs ⟨conn.cur, st.procid, [], []⟩
      p hp key hk
    refine ⟨i, ?_⟩
    rw [steadyTick_cur_samples]
    exact List.mem_append_right _ hi
  · intro cfg st conn inps hcur hcom
    exact (runTicks_samples_inv (fun s => 0 ≤ s.delta_cpu_s) cfg
      (fun prev dt ts key i p _ _ => sampleOf_delta_nonneg ..)
      inps st conn hcur hcom).1

/-- Configuration, state, process and tick input realizing the spec's
Scenario A (1 logical core, threshold 0.005, baseline 10.0s, next reading
10.5s one second later). -/
def cfgA : SamplerCfg := ⟨1, 1 / 200, true, true⟩

def stA : SamplerState := ⟨[((1, 0), 10)], [], [], some 0⟩

def procA : ProcInfo :=
  ⟨some 1, some 0, none, none, none, none, none,
    some ⟨some (21 / 2), some 0⟩, none, none, none, none⟩

def inpA : TickInput := ⟨1, 100, [procA], true, true⟩

/-- Witness for `delta_cpu_contract`: a one-tick run from a fresh store
keeps every persisted delta non-negative. -/
theorem delta_cpu_contract_witness :
    (∀ s ∈ initConn.cur.samples, 0 ≤ s.delta_cpu_s) ∧
    (∀ s ∈ initConn.committed.samples, 0 ≤ s.delta_cpu_s) ∧
    (∀ s ∈ (runTicks cfgA (stA, initConn) [inpA]).2.cur.samples,
      0 ≤ s.delta_cpu_s) :=
  ⟨fun s hs => absurd hs (by simp [initConn]),
   fun s hs => absurd hs (by simp [initConn]),
   delta_cpu_contract.2.2 cfgA stA initConn [inpA]
     (fun s hs => absurd hs (by simp [initConn]))
     (fun s hs => absurd hs (by simp [initConn]))⟩

/-- C2: on every steady tick every Sample row written records
`dt` = the monotonic delta clamped to `[0.25, 5]` and
`eff_cores = min(delta_cpu / dt, 1.5 × cpu_count)`; consequently
`eff_cores ≤ 1.5 × cpu_count` and `0.25 ≤ dt_s ≤ 5` in every sample row
ever written over any run. -/
theorem eff_cores_contract :
    (∀ (cfg : SamplerCfg) (st : SamplerState) (conn : Conn)
        (lm mono ts : ℚ) (procs : List ProcInfo) (mok : Bool),
      ∀ row ∈ (steadyTick cfg st conn lm mono ts procs true mok).2.2.cur.samples,
        row ∈ conn.cur.samples ∨
        (row.dt_s = clamp (mono - lm) (1 / 4) 5 ∧
         row.eff_cores =
           min (row.delta_cpu_s / row.dt_s) ((cfg.cpu_count : ℚ) * (3 / 2)) ∧
         row.eff_cores ≤ (cfg.cpu_count : ℚ) * (3 / 2) ∧
         1 / 4 ≤ row.dt_s ∧ row.dt_s ≤ 5)) ∧
    (∀ (cfg : SamplerCfg) (st : SamplerState) (conn : Conn)
        (inps : List TickInput),
      (∀ s ∈ conn.cur.samples,
        s.eff_cores ≤ (cfg.cpu_count : ℚ) * (3 / 2) ∧
        1 / 4 ≤ s.dt_s ∧ s.dt_s ≤ 5) →
      (∀ s ∈ conn.committed.samples,
        s.eff_cores ≤ (cfg.cpu_count : ℚ) * (3 / 2) ∧
        1 / 4 ≤ s.dt_s ∧ s.dt_s ≤ 5) →
      ∀ s ∈ (runTicks cfg (st, conn) inps).2.cur.samples,
        s.eff_cores ≤ (cfg.cpu_count : ℚ) * (3 / 2) ∧
        1 / 4 ≤ s.dt_s ∧ s.dt_s ≤ 5) := by
  have hrowfact : ∀ (cfg : SamplerCfg) (prev : List (ProcKey × ℚ))
      (dt ts : ℚ) (key : ProcKey) (i : Nat) (p : ProcInfo),
      1 / 4 ≤ dt → dt ≤ 5 →
      (sampleOf cfg prev dt ts key i p).dt_s = dt ∧
      (sampleOf cfg prev dt ts key i p).eff_cores =
        min ((sampleOf cfg prev dt ts key i p).delta_cpu_s / dt)
          ((cfg.cpu_count : ℚ) * (3 / 2)) ∧
      (sampleOf cfg prev dt ts key i p).eff_cores ≤
        (cfg.cpu_count : ℚ) * (3 / 2) := by
    intro cfg prev dt ts key i p hlo hhi
    refine ⟨rfl, ?_, ?_⟩
    · have hpos : 0 < dt := lt_of_lt_of_le (by norm_num) hlo
      exact effCores_eq_of_pos _ _ _ hpos
    · exact effCores_le ..
  constructor
  · intro cfg st conn lm mono ts procs mok row hrow
    rw [steadyTick_cur_samples] at hrow
    rcases List.mem_append.mp hrow with h1 | h2
    · exact Or.inl h1
    · rcases foldProc_rows_mem cfg st.prev_cpu _ ts procs
        ⟨conn.cur, st.procid, [], []⟩ row h2 with hemp | ⟨p, hp, key, i, hk, hr⟩
      · cases hemp
      · right
        have hlo : (1 : ℚ) / 4 ≤ clamp (mono - lm) (1 / 4) 5 :=
          le_clamp _ _ _ (by norm_num)
        have hhi : clamp (mono - lm) (1 / 4) 5 ≤ 5 :=
          clamp_le _ _ _ (by norm_num)
        obtain ⟨hdt, heff, hle⟩ := hrowfact cfg st.prev_cpu _ ts key i p hlo hhi
        subst hr
        exact ⟨hdt, by rw [heff, hdt], hle, by rw [hdt]; exact hlo,
          by rw [hdt]; exact hhi⟩
  · intro cfg st conn inps hcur hcom
    exact (runTicks_samples_inv
      (fun s => s.eff_cores ≤ (cfg.cpu_count : ℚ) * (3 / 2) ∧
        1 / 4 ≤ s.dt_s ∧ s.dt_s ≤ 5) cfg
      (fun prev dt ts key i p hlo hhi => by
        obtain ⟨hdt, _, hle⟩ := hrowfact cfg prev dt ts key i p hlo hhi
        exact ⟨hle, by rw [hdt]; exact hlo, by rw [hdt]; exact hhi⟩)
      inps st conn hcur hcom).1

/-- Witness for `eff_cores_contract`: a one-tick run from a fresh store
keeps every persisted row's effective cores capped and dt clamped. -/
theorem eff_cores_contract_witness :
    (∀ s ∈ initConn.cur.samples,
      s.eff_cores ≤ (cfgA.cpu_count : ℚ) * (3 / 2) ∧
      1 / 4 ≤ s.dt_s ∧ s.dt_s ≤ 5) ∧
    (∀ s ∈ initConn.committed.samples,
      s.eff_cores ≤ (cfgA.cpu_count : ℚ) * (3 / 2) ∧
      1 / 4 ≤ s.dt_s ∧ s.dt_s ≤ 5) ∧
    (∀ s ∈ (runTicks cfgA (stA, initConn) [inpA]).2.cur.samples,
      s.eff_cores ≤ (cfgA.cpu_count : ℚ) * (3 / 2) ∧
      1 / 4 ≤ s.dt_s ∧ s.dt_s ≤ 5) :=
  ⟨fun s hs => absurd hs (by simp [initConn]),
   fun s hs => absurd hs (by simp [initConn]),
   eff_cores_contract.2 cfgA stA initConn [inpA]
     (fun s hs => absurd hs (by simp [initConn]))
     (fun s hs => absurd hs (by simp [initConn]))⟩

/-- C3: in every Sample row written on a steady tick, `active = 1` iff
`delta_cpu_s ≥ active_threshold × dt` (boundary inclusive), for every
threshold and clamped dt; the equivalence holds for every row ever written
over any run. -/
theorem active_flag_contract :
    (∀ (cfg : SamplerCfg) (st : SamplerState) (conn : Conn)
        (lm mono ts : ℚ) (procs : List ProcInfo) (mok : Bool),
      ∀ row ∈ (steadyTick cfg st conn lm mono ts procs true mok).2.2.cur.samples,
        row ∈ conn.cur.samples ∨
        (row.active = 1 ↔ cfg.active_threshold * row.dt_s ≤ row.delta_cpu_s)) ∧
    (∀ (cfg : SamplerCfg) (st : SamplerState) (conn : Conn)
        (inps : List TickInput),
      (∀ s ∈ conn.cur.samples,
        s.active = 1 ↔ cfg.active_threshold * s.dt_s ≤ s.delta_cpu_s) →
      (∀ s ∈ conn.committed.samples,
        s.active = 1 ↔ cfg.active_threshold * s.dt_s ≤ s.delta_cpu_s) →
      ∀ s ∈ (runTicks cfg (st, conn) inps).2.cur.samples,
        s.active = 1 ↔ cfg.active_threshold * s.dt_s ≤ s.delta_cpu_s) := by
  have hrowfact : ∀ (cfg : SamplerCfg) (prev : List (ProcKey × ℚ))
      (dt ts : ℚ) (key : ProcKey) (i : Nat) (p : ProcInfo),
      ((sampleOf cfg prev dt ts key i p).active = 1 ↔
        cfg.active_threshold * (sampleOf cfg prev dt ts key i p).dt_s ≤
          (sampleOf cfg prev dt ts key i p).delta_cpu_s) := by
    intro cfg prev dt ts key i p
    exact activeFlag_eq_one_iff ..
  constructor
  · intro cfg st conn lm mono ts procs mok row hrow
    rw [steadyTick_cur_samples] at hrow
    rcases List.mem_append.mp hrow with h1 | h2
    · exact Or.inl h1
    · rcases foldProc_rows_mem cfg st.prev_cpu _ ts procs
        ⟨conn.cur, st.procid, [], []⟩ row h2 with hemp | ⟨p, hp, key, i, hk, hr⟩
      · cases hemp
      · right
        subst hr
        exact hrowfact ..
  · intro cfg st conn inps hcur hcom
    exact (runTicks_samples_inv
      (fun s => s.active = 1 ↔ cfg.active_threshold * s.dt_s ≤ s.delta_cpu_s)
      cfg (fun prev dt ts key i p _ _ => hrowfact ..) inps st conn hcur hcom).1

/-- Witness for `active_flag_contract`: a one-tick run from a fresh store. -/
theorem active_flag_contract_witness :
    (∀ s ∈ initConn.cur.samples,
      s.active = 1 ↔ cfgA.active_threshold * s.dt_s ≤ s.delta_cpu_s) ∧
    (∀ s ∈ initConn.committed.samples,
      s.active = 1 ↔ cfgA.active_threshold * s.dt_s ≤ s.delta_cpu_s) ∧
    (∀ s ∈ (runTicks cfgA (stA, initConn) [inpA]).2.cur.samples,
      s.active = 1 ↔ cfgA.active_threshold * s.dt_s ≤ s.delta_cpu_s) :=
  ⟨fun s hs => absurd hs (by simp [initConn]),
   fun s hs => absurd hs (by simp [initConn]),
   active_flag_contract.2 cfgA stA initConn [inpA]
     (fun s hs => absurd hs (by simp [initConn]))
     (fun s hs => absurd hs (by simp [initConn]))⟩

/-- C7 counterexample: a steady tick whose batched write fails leaves the
baseline at the old value (10) even though the tick read 10.5, contradicting
the claim that the baseline advances despite the failed write. -/
theorem failed_write_keeps_baseline_cx :
    (steadyTick cfgA stA initConn 0 1 100 [procA] false true).1 = false ∧
    cpuTotalSeconds procA.cpu_times = some (21 / 2) ∧
    alLookup
      (steadyTick cfgA stA initConn 0 1 100 [procA] false true).2.1.prev_cpu
      (1, 0) = some 10 ∧
    (10 : ℚ) ≠ 21 / 2 := by
  refine ⟨?_, by norm_num [procA, cpuTotalSeconds], ?_, by norm_num⟩
  · unfold steadyTick
    rw [if_neg (by simp)]
  · unfold steadyTick
    rw [if_neg (by simp)]
    rfl

/-- C7 (amended): when the batched sample write of a steady tick fails, the
exception propagates before `_handle_missing_and_ended`, so the in-memory
baseline map does NOT advance — `prev_cpu` and `missing_ticks` are left
unchanged for every key — and the transaction rolls back. -/
theorem failed_write_keeps_baseline (cfg : SamplerCfg) (st : SamplerState)
    (conn : Conn) (lm mono ts : ℚ) (procs : List ProcInfo) (mok : Bool) :
    (steadyTick cfg st conn lm mono ts procs false mok).1 = false ∧
    (steadyTick cfg st conn lm mono ts procs false mok).2.1.prev_cpu =
      st.prev_cpu ∧
    (steadyTick cfg st conn lm mono ts procs false mok).2.1.missing_ticks =
      st.missing_ticks ∧
    (steadyTick cfg st conn lm mono ts procs false mok).2.2 =
      conn.rollback := by
  unfold steadyTick
  rw [if_neg (by simp)]
  exact ⟨rfl, rfl, rfl, rfl⟩

/-! ### The `partial_meta` flag through a tick (C6) -/

theorem matchKey_upsertUpdate_key (k1 : Int) (k2 : ℚ) (s : ProcessRecord)
    (exe nm cmd user : Option String) (ppid : Option Int) (now_ts : ℚ)
    (pm : Bool) :
    matchKey k1 k2 (upsertUpdate s exe nm cmd user ppid now_ts pm) =
      matchKey k1 k2 s := rfl

theorem upsert_fresh_eq (db : DB) (pid : Int) (ct : ℚ)
    (exe nm cmd user : Option String) (ppid : Option Int) (now_ts : ℚ)
    (pm : Bool) (habs : db.procs.any (matchKey pid ct) = false) :
    (insertOrGetProcessId db pid ct exe nm cmd user ppid now_ts pm).2.procs =
      db.procs ++
      [⟨db.next_id, pid, ct, exe, nm, cmd, user, ppid, now_ts, now_ts, 0, pm⟩] := by
  unfold insertOrGetProcessId
  simp [habs]

theorem upsert_other_absent (db : DB) (pid : Int) (ct : ℚ) (k : ProcKey)
    (exe nm cmd user : Option String) (ppid : Option Int) (now_ts : ℚ)
    (pm : Bool) (hne : (pid, ct) ≠ k)
    (habs : ∀ r ∈ db.procs, matchKey k.1 k.2 r = false) :
    ∀ r ∈ (insertOrGetProcessId db pid ct exe nm cmd user ppid now_ts pm).2.procs,
      matchKey k.1 k.2 r = false := by
  unfold insertOrGetProcessId
  cases hany : db.procs.any (matchKey pid ct) with
  | true =>
    simp only [hany, if_true]
    intro r hr
    obtain ⟨s, hs, rfl⟩ := List.mem_map.mp hr
    by_cases hms : matchKey pid ct s = true
    · rw [if_pos hms, matchKey_upsertUpdate_key]
      exact habs s hs
    · rw [if_neg hms]
      exact habs s hs
  | false =>
    simp only [hany, Bool.false_eq_true, if_false]
    intro r hr
    rcases List.mem_append.mp hr with hl | hrr
    · exact habs r hl
    · rw [List.mem_singleton.mp hrr]
      cases hmk : matchKey k.1 k.2
          (⟨db.next_id, pid, ct, exe, nm, cmd, user, ppid, now_ts, now_ts, 0, pm⟩ :
            ProcessRecord) with
      | false => rfl
      | true =>
        obtain ⟨hp, hc⟩ := (matchKey_iff k.1 k.2 _).mp hmk
        apply absurd _ hne
        have hp2 : pid = k.1 := hp
        have hc2 : ct = k.2 := hc
        rw [hp2, hc2]
  
theorem stepProc_absent (cfg : SamplerCfg) (prev : List (ProcKey × ℚ))
    (dt ts : ℚ) (acc : TickAcc) (q : ProcInfo) (k : ProcKey)
    (hq : resolveKey q ≠ some k)
    (habs : ∀ r ∈ acc.db.procs, matchKey k.1 k.2 r = false) :
    ∀ r ∈ (stepProc cfg prev dt ts acc q).db.procs,
      matchKey k.1 k.2 r = false := by
  unfold stepProc
  cases hk : resolveKey q with
  | none => exact habs
  | some key =>
    have hne : (key.1, key.2) ≠ k := by
      intro h
      exact hq (by rw [hk]; congr)
    exact upsert_other_absent acc.db key.1 key.2 k _ _ _ _ _ ts _ hne habs

theorem stepProc_keeps_record (cfg : SamplerCfg) (prev : List (ProcKey × ℚ))
    (dt ts : ℚ) (acc : TickAcc) (q : ProcInfo) (k : ProcKey)
    (hq : resolveKey q ≠ some k) (r : ProcessRecord) (hr : r ∈ acc.db.procs)
    (hpid : r.pid = k.1) (hct : r.create_time = k.2) :
    r ∈ (stepProc cfg prev dt ts acc q).db.procs := by
  unfold stepProc
  cases hk : resolveKey q with
  | none => exact hr
  | some key =>
    have hne : (key.1, key.2) ≠ k := by
      intro h
      exact hq (by rw [hk]; congr)
    apply upsert_preserves_nonmatching
    · exact hr
    · cases hmk : matchKey key.1 key.2 r with
      | false => rfl
      | true =>
        obtain ⟨hp, hc⟩ := (matchKey_iff key.1 key.2 r).mp hmk
        rw [hpid] at hp
        rw [hct] at hc
        apply absurd _ hne
        rw [← hp, ← hc]

theorem foldProc_absent (cfg : SamplerCfg) (prev : List (ProcKey × ℚ))
    (dt ts : ℚ) (l : List ProcInfo) (acc : TickAcc) (k : ProcKey)
    (hl : ∀ q ∈ l, resolveKey q ≠ some k)
    (habs : ∀ r ∈ acc.db.procs, matchKey k.1 k.2 r = false) :
    ∀ r ∈ (l.foldl (stepProc cfg prev dt ts) acc).db.procs,
      matchKey k.1 k.2 r = false := by
  induction l generalizing acc with
  | nil => exact habs
  | cons q t ih =>
    rw [List.foldl_cons]
    exact ih _ (fun q2 hq2 => hl q2 (List.mem_cons_of_mem q hq2))
      (stepProc_absent cfg prev dt ts acc q k (hl q (List.mem_cons_self q t))
        habs)

theorem foldProc_keeps_record (cfg : SamplerCfg) (prev : List (ProcKey × ℚ))
    (dt ts : ℚ) (l : List ProcInfo) (acc : TickAcc) (k : ProcKey)
    (hl : ∀ q ∈ l, resolveKey q ≠ some k) (r : ProcessRecord)
    (hr : r ∈ acc.db.procs) (hpid : r.pid = k.1) (hct : r.create_time = k.2) :
    r ∈ (l.foldl (stepProc cfg prev dt ts) acc).db.procs := by
  induction l generalizing acc with
  | nil => exact hr
  | cons q t ih =>
    rw [List.foldl_cons]
    exact ih _ (fun q2 hq2 => hl q2 (List.mem_cons_of_mem q hq2))
      (stepProc_keeps_record cfg prev dt ts acc q k
        (hl q (List.mem_cons_self q t)) r hr hpid hct)

/-- Any record present after the enumeration fold survives the rest of a
successful steady tick with its key and `partial_meta` intact (the
mark-ended write touches only `ended`/`last_seen`). -/
theorem steadyTick_record_mem (cfg : SamplerCfg) (st : SamplerState)
    (conn : Conn) (lm mono ts : ℚ) (procs : List ProcInfo) (mok : Bool)
    (r : ProcessRecord)
    (hr : r ∈ (procs.foldl
      (stepProc cfg st.prev_cpu (clamp (mono - lm) (1 / 4) 5) ts)
      ⟨conn.cur, st.procid, [], []⟩).db.procs) :
    ∃ r' ∈ (steadyTick cfg st conn lm mono ts procs true mok).2.2.cur.procs,
      r'.pid = r.pid ∧ r'.create_time = r.create_time ∧
      r'.partial_meta = r.partial_meta := by
  unfold steadyTick
  rw [if_pos rfl]
  unfold handleMissingAndEnded
  dsimp only [Conn.commit]
  split_ifs with h1 h2
  · exact ⟨r, hr, rfl, rfl, rfl⟩
  · unfold markProcessEnded
    dsimp only []
    refine ⟨_, List.mem_map.mpr ⟨r, hr, rfl⟩, ?_⟩
    split_ifs with hid
    · exact ⟨rfl, rfl, rfl⟩
    · exact ⟨rfl, rfl, rfl⟩
  · exact ⟨r, hr, rfl, rfl, rfl⟩

/-- C6 (amended): the `partial_meta` flag stored for a process first seen on
a steady tick is set exactly when its cumulative CPU time could not be
read; an unreadable exe/name/cmdline/username/ppid alone does not set it. -/
theorem partial_meta_tracks_cpu (cfg : SamplerCfg) (st : SamplerState)
    (conn : Conn) (lm mono ts : ℚ) (mok : Bool) (l1 l2 : List ProcInfo)
    (p : ProcInfo) (k : ProcKey) (hk : resolveKey p = some k)
    (hl1 : ∀ q ∈ l1, resolveKey q ≠ some k)
    (hl2 : ∀ q ∈ l2, resolveKey q ≠ some k)
    (habs : ∀ r ∈ conn.cur.procs, matchKey k.1 k.2 r = false) :
    ∃ r ∈ (steadyTick cfg st conn lm mono ts (l1 ++ p :: l2) true mok).2.2.cur.procs,
      r.pid = k.1 ∧ r.create_time = k.2 ∧
      r.partial_meta = tickPartialMeta p ∧
      (tickPartialMeta p = true ↔ cpuTotalSeconds p.cpu_times = none) := by
  have hiff : tickPartialMeta p = true ↔ cpuTotalSeconds p.cpu_times = none := by
    simp [tickPartialMeta, Option.isNone_iff_eq_none]
  set dt := clamp (mono - lm) (1 / 4) 5 with hdt
  set acc0 : TickAcc := ⟨conn.cur, st.procid, [], []⟩ with hacc0
  set acc1 := l1.foldl (stepProc cfg st.prev_cpu dt ts) acc0 with hacc1
  have habs1 : ∀ r ∈ acc1.db.procs, matchKey k.1 k.2 r = false :=
    foldProc_absent cfg st.prev_cpu dt ts l1 acc0 k hl1 habs
  have hany : acc1.db.procs.any (matchKey k.1 k.2) = false := by
    cases h : acc1.db.procs.any (matchKey k.1 k.2) with
    | false => rfl
    | true =>
      obtain ⟨r, hr, hm⟩ := List.any_eq_true.mp h
      rw [habs1 r hr] at hm
      exact absurd hm (by simp)
  -- the record inserted at p's step
  set r0 : ProcessRecord :=
    ⟨acc1.db.next_id, k.1, k.2, safeStr p.exe, safeStr p.name,
      cmdlineStr p.cmdline, safeStr p.username, p.ppid, ts, ts, 0,
      tickPartialMeta p⟩ with hr0
  have hmem1 : r0 ∈ (stepProc cfg st.prev_cpu dt ts acc1 p).db.procs := by
    unfold stepProc
    rw [hk]
    dsimp only []
    rw [upsert_fresh_eq acc1.db k.1 k.2 (safeStr p.exe) (safeStr p.name)
      (cmdlineStr p.cmdline) (safeStr p.username) p.ppid ts
      (tickPartialMeta p) hany]
    exact List.mem_append_right _ (List.mem_singleton_self _)
  have hmem2 : r0 ∈ ((l1 ++ p :: l2).foldl
      (stepProc cfg st.prev_cpu dt ts) acc0).db.procs := by
    rw [List.foldl_append, List.foldl_cons]
    exact foldProc_keeps_record cfg st.prev_cpu dt ts l2 _ k hl2 r0 hmem1
      rfl rfl
  obtain ⟨r', hr', hpid, hct, hpm⟩ := steadyTick_record_mem cfg st conn lm
    mono ts (l1 ++ p :: l2) mok r0 hmem2
  exact ⟨r', hr', by rw [hpid], by rw [hct], by rw [hpm], hiff⟩

/-- Witness for `partial_meta_tracks_cpu`: the Scenario A process (readable
CPU times, no exe) first seen on a steady tick over a fresh store. -/
theorem partial_meta_tracks_cpu_witness :
    ∃ r ∈ (steadyTick cfgA stA initConn 0 1 100 ([] ++ procA :: []) true
        true).2.2.cur.procs,
      r.pid = (1 : Int) ∧ r.create_time = (0 : ℚ) ∧
      r.partial_meta = tickPartialMeta procA ∧
      (tickPartialMeta procA = true ↔ cpuTotalSeconds procA.cpu_times = none) :=
  partial_meta_tracks_cpu cfgA stA initConn 0 1 100 true [] [] procA (1, 0)
    rfl (fun q hq => absurd hq (by simp)) (fun q hq => absurd hq (by simp))
    (fun r hr => absurd hr (by simp [initConn]))

/-- C6 counterexample: a process whose executable path is unreadable but
whose CPU times are readable is stored with `partial_meta = 0`, refuting
the claim that any unreadable identity/metadata field sets the flag. -/
theorem partial_meta_ignores_missing_exe_cx :
    procA.exe = none ∧ tickPartialMeta procA = false ∧
    (steadyTick cfgA stA initConn 0 1 100 [procA] true true).2.2.cur.procs =
      [⟨1, 1, 0, none, none, none, none, none, 100, 100, 0, false⟩] := by
  refine ⟨rfl, rfl, ?_⟩
  rfl

/-! ### Lifecycle tracking (`_handle_missing_and_ended`, C4/C10) -/

/-- Keys of an association list are distinct (Python dict invariant). -/
def keysND (l : List (ProcKey × α)) : Prop := (l.map Prod.fst).Nodup

theorem mem_keys_of_lookup (l : List (ProcKey × α)) (k : ProcKey) (v : α)
    (h : alLookup l k = some v) : k ∈ l.map Prod.fst := by
  induction l with
  | nil => cases h
  | cons a t ih =>
    by_cases ha : a.1 = k
    · rw [List.map_cons, ha]
      exact List.mem_cons_self k _
    · rw [alLookup, if_neg ha] at h
      exact List.mem_cons_of_mem _ (ih h)

theorem keys_alInsert_sub (l : List (ProcKey × α)) (k : ProcKey) (v : α) :
    ∀ x ∈ (alInsert l k v).map Prod.fst, x ∈ l.map Prod.fst ∨ x = k := by
  induction l with
  | nil => intro x hx; simp [alInsert] at hx; exact Or.inr hx
  | cons a t ih =>
    intro x hx
    by_cases ha : a.1 = k
    · rw [alInsert, if_pos ha] at hx
      rcases List.mem_cons.mp hx with h1 | h2
      · exact Or.inr h1
      · exact Or.inl (List.mem_cons_of_mem _ h2)
    · rw [alInsert, if_neg ha] at hx
      rcases List.mem_cons.mp hx with h1 | h2
      · exact Or.inl (by rw [List.map_cons, h1]; exact List.mem_cons_self a.1 _)
      · rcases ih x h2 with h3 | h4
        · exact Or.inl (List.mem_cons_of_mem _ h3)
        · exact Or.inr h4

theorem keysND_alInsert (l : List (ProcKey × α)) (k : ProcKey) (v : α)
    (h : keysND l) : keysND (alInsert l k v) := by
  induction l with
  | nil => simp [alInsert, keysND]
  | cons a t ih =>
    unfold keysND at h ⊢
    rw [List.map_cons, List.nodup_cons] at h
    by_cases ha : a.1 = k
    · rw [alInsert, if_pos ha, List.map_cons, List.nodup_cons]
      exact ⟨by rw [← ha]; exact h.1, h.2⟩
    · rw [alInsert, if_neg ha, List.map_cons, List.nodup_cons]
      refine ⟨?_, ih h.2⟩
      intro hmem
      rcases keys_alInsert_sub t k v a.1 hmem with h1 | h2
      · exact h.1 h1
      · exact ha h2

theorem keys_alErase_sub (l : List (ProcKey × α)) (k : ProcKey) :
    ∀ x ∈ (alErase l k).map Prod.fst, x ∈ l.map Prod.fst := by
  induction l with
  | nil => intro x hx; cases hx
  | cons a t ih =>
    intro x hx
    by_cases ha : a.1 = k
    · rw [alErase, if_pos ha] at hx
      exact List.mem_cons_of_mem _ (ih x hx)
    · rw [alErase, if_neg ha] at hx
      rcases List.mem_cons.mp hx with h1 | h2
      · rw [List.map_cons, h1]; exact List.mem_cons_self a.1 _
      · exact List.mem_cons_of_mem _ (ih x h2)

theorem keysND_alErase (l : List (ProcKey × α)) (k : ProcKey)
    (h : keysND l) : keysND (alErase l k) := by
  induction l with
  | nil => exact h
  | cons a t ih =>
    unfold keysND at h ⊢
    rw [List.map_cons, List.nodup_cons] at h
    by_cases ha : a.1 = k
    · rw [alErase, if_pos ha]
      exact ih h.2
    · rw [alErase, if_neg ha, List.map_cons, List.nodup_cons]
      exact ⟨fun hmem => h.1 (keys_alErase_sub t k a.1 hmem), ih h.2⟩

theorem keysND_foldInsert (seen : List (ProcKey × α))
    (m0 : List (ProcKey × α)) (h : keysND m0) :
    keysND (seen.foldl (fun m kt => alInsert m kt.1 kt.2) m0) := by
  induction seen generalizing m0 with
  | nil => exact h
  | cons kt t ih =>
    rw [List.foldl_cons]
    exact ih _ (keysND_alInsert m0 kt.1 kt.2 h)

theorem foldInsert_lookup_ne (seen : List (ProcKey × α))
    (m0 : List (ProcKey × α)) (k : ProcKey) (h : ∀ kt ∈ seen, kt.1 ≠ k) :
    alLookup (seen.foldl (fun m kt => alInsert m kt.1 kt.2) m0) k =
      alLookup m0 k := by
  induction seen generalizing m0 with
  | nil => rfl
  | cons kt t ih =>
    rw [List.foldl_cons,
      ih _ (fun kt2 h2 => h kt2 (List.mem_cons_of_mem kt h2)),
      alLookup_insert_ne m0 kt.1 k kt.2
        (Ne.symm (h kt (List.mem_cons_self kt t)))]

theorem foldErase_lookup_ne {β : Type} (seen : List (ProcKey × β))
    (m0 : List (ProcKey × α)) (k : ProcKey) (h : ∀ kt ∈ seen, kt.1 ≠ k) :
    alLookup (seen.foldl (fun m kt => alErase m kt.1) m0) k =
      alLookup m0 k := by
  induction seen generalizing m0 with
  | nil => rfl
  | cons kt t ih =>
    rw [List.foldl_cons,
      ih _ (fun kt2 h2 => h kt2 (List.mem_cons_of_mem kt h2)),
      alLookup_erase_ne m0 kt.1 k (Ne.symm (h kt (List.mem_cons_self kt t)))]

theorem stepMissing_lookup_ne (sk : List ProcKey) (acc : MissAcc)
    (k2 k : ProcKey) (hne : k2 ≠ k) :
    alLookup (stepMissing sk acc k2).prev_cpu k = alLookup acc.prev_cpu k ∧
    alLookup (stepMissing sk acc k2).missing k = alLookup acc.missing k ∧
    alLookup (stepMissing sk acc k2).procid k = alLookup acc.procid k := by
  unfold stepMissing
  by_cases hsk : k2 ∈ sk
  · rw [if_pos hsk]
    exact ⟨rfl, rfl, rfl⟩
  · rw [if_neg hsk]
    dsimp only []
    by_cases hcnt : 2 ≤ (alLookup acc.missing k2).getD 0 + 1
    · rw [if_pos hcnt]
      exact ⟨alLookup_erase_ne _ _ _ (Ne.symm hne),
        alLookup_erase_ne _ _ _ (Ne.symm hne),
        alLookup_erase_ne _ _ _ (Ne.symm hne)⟩
    · rw [if_neg hcnt]
      exact ⟨rfl, alLookup_insert_ne _ _ _ _ (Ne.symm hne), rfl⟩

theorem foldMissing_lookup_ne (sk K : List ProcKey) (acc : MissAcc)
    (k : ProcKey) (hK : ∀ k2 ∈ K, k2 ≠ k) :
    alLookup (K.foldl (stepMissing sk) acc).prev_cpu k =
      alLookup acc.prev_cpu k ∧
    alLookup (K.foldl (stepMissing sk) acc).missing k =
      alLookup acc.missing k ∧
    alLookup (K.foldl (stepMissing sk) acc).procid k =
      alLookup acc.procid k := by
  induction K generalizing acc with
  | nil => exact ⟨rfl, rfl, rfl⟩
  | cons k2 t ih =>
    rw [List.foldl_cons]
    obtain ⟨h1, h2, h3⟩ := ih (stepMissing sk acc k2)
      (fun k3 h3 => hK k3 (List.mem_cons_of_mem k2 h3))
    obtain ⟨g1, g2, g3⟩ := stepMissing_lookup_ne sk acc k2 k
      (hK k2 (List.mem_cons_self k2 t))
    exact ⟨h1.trans g1, h2.trans g2, h3.trans g3⟩

theorem stepMissing_ended_mono (sk : List ProcKey) (acc : MissAcc)
    (k2 : ProcKey) :
    ∀ i ∈ acc.ended_ids, i ∈ (stepMissing sk acc k2).ended_ids := by
  unfold stepMissing
  by_cases hsk : k2 ∈ sk
  · rw [if_pos hsk]
    exact fun i h => h
  · rw [if_neg hsk]
    dsimp only []
    by_cases hcnt : 2 ≤ (alLookup acc.missing k2).getD 0 + 1
    · rw [if_pos hcnt]
      exact fun i h => List.mem_append_left _ h
    · rw [if_neg hcnt]
      exact fun i h => h

theorem foldMissing_ended_mono (sk K : List ProcKey) (acc : MissAcc) :
    ∀ i ∈ acc.ended_ids, i ∈ (K.foldl (stepMissing sk) acc).ended_ids := by
  induction K generalizing acc with
  | nil => exact fun i h => h
  | cons k2 t ih =>
    intro i h
    rw [List.foldl_cons]
    exact ih _ i (stepMissing_ended_mono sk acc k2 i h)

theorem stepMissing_procid_sub (sk : List ProcKey) (acc : MissAcc)
    (k2 : ProcKey) :
    ∀ x i, alLookup (stepMissing sk acc k2).procid x = some i →
      alLookup acc.procid x = some i := by
  unfold stepMissing
  by_cases hsk : k2 ∈ sk
  · rw [if_pos hsk]
    exact fun x i h => h
  · rw [if_neg hsk]
    dsimp only []
    by_cases hcnt : 2 ≤ (alLookup acc.missing k2).getD 0 + 1
    · rw [if_pos hcnt]
      intro x i h
      by_cases hx : x = k2
      · rw [hx, alLookup_erase_self] at h
        cases h
      · rw [alLookup_erase_ne _ _ _ hx] at h
        exact h
    · rw [if_neg hcnt]
      exact fun x i h => h

theorem foldMissing_procid_sub (sk K : List ProcKey) (acc : MissAcc) :
    ∀ x i, alLookup (K.foldl (stepMissing sk) acc).procid x = some i →
      alLookup acc.procid x = some i := by
  induction K generalizing acc with
  | nil => exact fun x i h => h
  | cons k2 t ih =>
    intro x i h
    rw [List.foldl_cons] at h
    exact stepMissing_procid_sub sk acc k2 x i (ih _ x i h)

/-- Every id collected into `ended_ids` by the missing fold came from a key
of the iterated list that was not seen and already carried a positive
missing count. -/
theorem foldMissing_ended_src (sk K : List ProcKey) (acc : MissAcc)
    (hK : K.Nodup) :
    ∀ i ∈ (K.foldl (stepMissing sk) acc).ended_ids,
      i ∈ acc.ended_ids ∨ ∃ k2 ∈ K, k2 ∉ sk ∧
        alLookup acc.procid k2 = some i ∧
        1 ≤ (alLookup acc.missing k2).getD 0 := by
  induction K generalizing acc with
  | nil => exact fun i h => Or.inl h
  | cons k2 t ih =>
    intro i hi
    rw [List.foldl_cons] at hi
    rw [List.nodup_cons] at hK
    rcases ih (stepMissing sk acc k2) hK.2 i hi with h1 | ⟨k3, hk3, hsk3, hpid3, hm3⟩
    · -- i was already in the accumulator after k2's step
      unfold stepMissing at h1
      by_cases hsk : k2 ∈ sk
      · rw [if_pos hsk] at h1
        exact Or.inl h1
      · rw [if_neg hsk] at h1
        dsimp only [] at h1
        by_cases hcnt : 2 ≤ (alLookup acc.missing k2).getD 0 + 1
        · rw [if_pos hcnt] at h1
          dsimp only [] at h1
          rcases List.mem_append.mp h1 with h2 | h3
          · exact Or.inl h2
          · cases hpk2 : alLookup acc.procid k2 with
            | none => rw [hpk2] at h3; cases h3
            | some i2 =>
              rw [hpk2] at h3
              have hii : i = i2 := List.mem_singleton.mp h3
              refine Or.inr ⟨k2, List.mem_cons_self k2 t, hsk,
                by rw [hpk2, hii], ?_⟩
              omega
        · rw [if_neg hcnt] at h1
          exact Or.inl h1
    · -- i came from a later key k3 ≠ k2
      have hne : k3 ≠ k2 := fun h => hK.1 (h ▸ hk3)
      obtain ⟨_, g2, g3⟩ := stepMissing_lookup_ne sk acc k2 k3 (Ne.symm hne)
      exact Or.inr ⟨k3, List.mem_cons_of_mem k2 hk3, hsk3,
        by rw [← g3]; exact hpid3, by rw [← g2]; exact hm3⟩

/-- First absence of a tracked key: the fold steps `k` exactly once and only
records a missing count of 1, leaving its baseline and id bindings alone. -/
theorem missFold_first_absence (sk K : List ProcKey) (acc : MissAcc)
    (k : ProcKey) (hksk : k ∉ sk) (hK : K.Nodup) (hkK : k ∈ K)
    (hm0 : (alLookup acc.missing k).getD 0 = 0) :
    alLookup (K.foldl (stepMissing sk) acc).prev_cpu k =
      alLookup acc.prev_cpu k ∧
    alLookup (K.foldl (stepMissing sk) acc).missing k = some 1 ∧
    alLookup (K.foldl (stepMissing sk) acc).procid k =
      alLookup acc.procid k := by
  obtain ⟨K1, K2, rfl⟩ := List.append_of_mem hkK
  rw [List.nodup_append] at hK
  obtain ⟨hK1, hK2c, hdisj⟩ := hK
  rw [List.nodup_cons] at hK2c
  have hk1 : ∀ k2 ∈ K1, k2 ≠ k := fun k2 h2 heq =>
    hdisj h2 (by rw [heq]; exact List.mem_cons_self k K2)
  have hk2 : ∀ k2 ∈ K2, k2 ≠ k := fun k2 h2 heq =>
    hK2c.1 (by rw [← heq]; exact h2)
  rw [List.foldl_append, List.foldl_cons]
  obtain ⟨e1, e2, e3⟩ := foldMissing_lookup_ne sk K1 acc k hk1
  -- the state right before k's own step
  set acc1 := K1.foldl (stepMissing sk) acc with hacc1
  have hm1 : (alLookup acc1.missing k).getD 0 = 0 := by rw [e2]; exact hm0
  have hstep : stepMissing sk acc1 k =
      { acc1 with missing := alInsert acc1.missing k 1 } := by
    unfold stepMissing
    rw [if_neg hksk]
    dsimp only []
    rw [hm1, if_neg (by omega)]
  obtain ⟨f1, f2, f3⟩ := foldMissing_lookup_ne sk K2 (stepMissing sk acc1 k) k hk2
  refine ⟨?_, ?_, ?_⟩
  · rw [f1, hstep]
    exact e1
  · rw [f2, hstep]
    exact alLookup_insert_self acc1.missing k 1
  · rw [f3, hstep]
    exact e3

/-- Second consecutive absence of a tracked key: the fold erases `k` from
all three maps and (when an id is bound) appends it to `ended_ids`. -/
theorem missFold_second_absence (sk K : List ProcKey) (acc : MissAcc)
    (k : ProcKey) (hksk : k ∉ sk) (hK : K.Nodup) (hkK : k ∈ K)
    (hm1 : (alLookup acc.missing k).getD 0 = 1) :
    alLookup (K.foldl (stepMissing sk) acc).prev_cpu k = none ∧
    alLookup (K.foldl (stepMissing sk) acc).missing k = none ∧
    alLookup (K.foldl (stepMissing sk) acc).procid k = none ∧
    (∀ i, alLookup acc.procid k = some i →
      i ∈ (K.foldl (stepMissing sk) acc).ended_ids) := by
  obtain ⟨K1, K2, rfl⟩ := List.append_of_mem hkK
  rw [List.nodup_append] at hK
  obtain ⟨hK1, hK2c, hdisj⟩ := hK
  rw [List.nodup_cons] at hK2c
  have hk1 : ∀ k2 ∈ K1, k2 ≠ k := fun k2 h2 heq =>
    hdisj h2 (by rw [heq]; exact List.mem_cons_self k K2)
  have hk2 : ∀ k2 ∈ K2, k2 ≠ k := fun k2 h2 heq =>
    hK2c.1 (by rw [← heq]; exact h2)
  rw [List.foldl_append, List.foldl_cons]
  obtain ⟨e1, e2, e3⟩ := foldMissing_lookup_ne sk K1 acc k hk1
  set acc1 := K1.foldl (stepMissing sk) acc with hacc1
  have hm1' : (alLookup acc1.missing k).getD 0 = 1 := by rw [e2]; exact hm1
  have hstep : stepMissing sk acc1 k =
      { prev_cpu := alErase acc1.prev_cpu k,
        missing := alErase acc1.missing k,
        procid := alErase acc1.procid k,
        ended_ids := acc1.ended_ids ++
          (match alLookup acc1.procid k with
           | some i => [i]
           | none => []) } := by
    unfold stepMissing
    rw [if_neg hksk]
    dsimp only []
    rw [hm1', if_pos (by omega)]
  obtain ⟨f1, f2, f3⟩ := foldMissing_lookup_ne sk K2 (stepMissing sk acc1 k) k hk2
  refine ⟨?_, ?_, ?_, ?_⟩
  · rw [f1, hstep]
    exact alLookup_erase_self acc1.prev_cpu k
  · rw [f2, hstep]
    exact alLookup_erase_self acc1.missing k
  · rw [f3, hstep]
    exact alLookup_erase_self acc1.procid k
  · intro i hi
    apply foldMissing_ended_mono
    rw [hstep]
    dsimp only []
    rw [e3, hi]
    exact List.mem_append_right _ (List.mem_singleton_self i)

theorem stepMissing_prevND (sk : List ProcKey) (acc : MissAcc) (k2 : ProcKey)
    (h : keysND acc.prev_cpu) : keysND (stepMissing sk acc k2).prev_cpu := by
  unfold stepMissing
  by_cases hsk : k2 ∈ sk
  · rw [if_pos hsk]
    exact h
  · rw [if_neg hsk]
    dsimp only []
    by_cases hcnt : 2 ≤ (alLookup acc.missing k2).getD 0 + 1
    · rw [if_pos hcnt]
      exact keysND_alErase _ _ h
    · rw [if_neg hcnt]
      exact h

theorem foldMissing_prevND (sk K : List ProcKey) (acc : MissAcc)
    (h : keysND acc.prev_cpu) :
    keysND (K.foldl (stepMissing sk) acc).prev_cpu := by
  induction K generalizing acc with
  | nil => exact h
  | cons k2 t ih =>
    rw [List.foldl_cons]
    exact ih _ (stepMissing_prevND sk acc k2 h)

/-- The state part of `_handle_missing_and_ended` keeps the baseline map's
keys distinct. -/
theorem handleMissingState_prevND (st : SamplerState)
    (seen : List (ProcKey × ℚ)) (h : keysND st.prev_cpu) :
    keysND (handleMissingState st seen).prev_cpu := by
  unfold handleMissingState
  exact foldMissing_prevND _ _ _ (keysND_foldInsert seen st.prev_cpu h)

/-- First absent call: key still fully tracked, missing counter 1, id bound
unchanged, nothing of it ended. -/
theorem handleMissingState_once (st : SamplerState)
    (seen : List (ProcKey × ℚ)) (k : ProcKey) (c : ℚ)
    (habs : ∀ kt ∈ seen, kt.1 ≠ k) (hnd : keysND st.prev_cpu)
    (hprev : alLookup st.prev_cpu k = some c)
    (hm0 : (alLookup st.missing_ticks k).getD 0 = 0) :
    alLookup (handleMissingState st seen).prev_cpu k = some c ∧
    alLookup (handleMissingState st seen).missing k = some 1 ∧
    alLookup (handleMissingState st seen).procid k =
      alLookup st.procid k ∧
    (∀ i0, (∀ k2, alLookup st.procid k2 = some i0 → k2 = k) →
      i0 ∉ (handleMissingState st seen).ended_ids) := by
  unfold handleMissingState
  dsimp only []
  have hprev1 : alLookup
      (seen.foldl (fun m kt => alInsert m kt.1 kt.2) st.prev_cpu) k = some c := by
    rw [foldInsert_lookup_ne seen st.prev_cpu k habs]
    exact hprev
  have hmiss1 : (alLookup
      (seen.foldl (fun m kt => alErase m kt.1) st.missing_ticks) k).getD 0 = 0 := by
    rw [foldErase_lookup_ne seen st.missing_ticks k habs]
    exact hm0
  have hknd : ((seen.foldl (fun m kt => alInsert m kt.1 kt.2)
      st.prev_cpu).map Prod.fst).Nodup :=
    keysND_foldInsert seen st.prev_cpu hnd
  have hkK : k ∈ (seen.foldl (fun m kt => alInsert m kt.1 kt.2)
      st.prev_cpu).map Prod.fst :=
    mem_keys_of_lookup _ k c hprev1
  have hksk : k ∉ seen.map Prod.fst := by
    intro hmem
    obtain ⟨kt, hkt, hk⟩ := List.mem_map.mp hmem
    exact habs kt hkt hk
  obtain ⟨e1, e2, e3⟩ := missFold_first_absence (seen.map Prod.fst) _
    ⟨_, _, st.procid, []⟩ k hksk hknd hkK hmiss1
  refine ⟨by rw [e1]; exact hprev1, e2, e3, ?_⟩
  intro i0 hinj hin
  rcases foldMissing_ended_src (seen.map Prod.fst) _
    ⟨_, _, st.procid, []⟩ hknd i0 hin with h1 | ⟨k2, _, hk2sk, hpid2, hm2⟩
  · cases h1
  · have : k2 = k := hinj k2 hpid2
    rw [this] at hm2
    dsimp only [] at hm2
    rw [foldErase_lookup_ne seen st.missing_ticks k habs] at hm2
    omega

/-- Second consecutive absent call: key dropped from all three maps, its
bound id collected for ending. -/
theorem handleMissingState_twice (st : SamplerState)
    (seen : List (ProcKey × ℚ)) (k : ProcKey) (c : ℚ)
    (habs : ∀ kt ∈ seen, kt.1 ≠ k) (hnd : keysND st.prev_cpu)
    (hprev : alLookup st.prev_cpu k = some c)
    (hm1 : (alLookup st.missing_ticks k).getD 0 = 1) :
    alLookup (handleMissingState st seen).prev_cpu k = none ∧
    alLookup (handleMissingState st seen).missing k = none ∧
    alLookup (handleMissingState st seen).procid k = none ∧
    (∀ i, alLookup st.procid k = some i →
      i ∈ (handleMissingState st seen).ended_ids) := by
  unfold handleMissingState
  dsimp only []
  have hprev1 : alLookup
      (seen.foldl (fun m kt => alInsert m kt.1 kt.2) st.prev_cpu) k = some c := by
    rw [foldInsert_lookup_ne seen st.prev_cpu k habs]
    exact hprev
  have hmiss1 : (alLookup
      (seen.foldl (fun m kt => alErase m kt.1) st.missing_ticks) k).getD 0 = 1 := by
    rw [foldErase_lookup_ne seen st.missing_ticks k habs]
    exact hm1
  have hknd : ((seen.foldl (fun m kt => alInsert m kt.1 kt.2)
      st.prev_cpu).map Prod.fst).Nodup :=
    keysND_foldInsert seen st.prev_cpu hnd
  have hkK : k ∈ (seen.foldl (fun m kt => alInsert m kt.1 kt.2)
      st.prev_cpu).map Prod.fst :=
    mem_keys_of_lookup _ k c hprev1
  have hksk : k ∉ seen.map Prod.fst := by
    intro hmem
    obtain ⟨kt, hkt, hk⟩ := List.mem_map.mp hmem
    exact habs kt hkt hk
  obtain ⟨e1, e2, e3, e4⟩ := missFold_second_absence (seen.map Prod.fst) _
    ⟨_, _, st.procid, []⟩ k hksk hknd hkK hmiss1
  exact ⟨e1, e2, e3, e4⟩

theorem handleMissingState_procid_sub (st : SamplerState)
    (seen : List (ProcKey × ℚ)) :
    ∀ x i, alLookup (handleMissingState st seen).procid x = some i →
      alLookup st.procid x = some i := by
  unfold handleMissingState
  dsimp only []
  exact fun x i h => foldMissing_procid_sub _ _ _ x i h

theorem handleMissingState_ended_src (st : SamplerState)
    (seen : List (ProcKey × ℚ)) (hnd : keysND st.prev_cpu) :
    ∀ i ∈ (handleMissingState st seen).ended_ids,
      ∃ k2, alLookup st.procid k2 = some i := by
  unfold handleMissingState
  dsimp only []
  intro i h
  rcases foldMissing_ended_src (seen.map Prod.fst) _ ⟨_, _, st.procid, []⟩
    (keysND_foldInsert seen st.prev_cpu hnd) i h with h1 | ⟨k2, _, _, hp, _⟩
  · cases h1
  · exact ⟨k2, hp⟩

/-- How `_handle_missing_and_ended` transforms the state. -/
theorem handleMissingAndEnded_fst (st : SamplerState) (conn : Conn)
    (seen : List (ProcKey × ℚ)) (ts : ℚ) (mok : Bool) :
    (handleMissingAndEnded st conn seen ts mok).1 =
      ⟨(handleMissingState st seen).prev_cpu,
        (handleMissingState st seen).procid,
        (handleMissingState st seen).missing, st.last_mono⟩ := rfl

/-- How `_handle_missing_and_ended` transforms the connection. -/
theorem handleMissingAndEnded_snd (st : SamplerState) (conn : Conn)
    (seen : List (ProcKey × ℚ)) (ts : ℚ) (mok : Bool) :
    (handleMissingAndEnded st conn seen ts mok).2 =
      if (handleMissingState st seen).ended_ids = [] then conn
      else if mok then
        Conn.commit ⟨markProcessEnded conn.cur
          (handleMissingState st seen).ended_ids ts, conn.committed⟩
      else conn.rollback := rfl

theorem mark_mem_of_not_mem (db : DB) (ids : List Nat) (ts : ℚ)
    (rec : ProcessRecord) (h : rec ∈ db.procs) (hni : rec.id ∉ ids) :
    rec ∈ (markProcessEnded db ids ts).procs := by
  unfold markProcessEnded
  exact List.mem_map.mpr ⟨rec, h, by rw [if_neg hni]⟩

theorem mark_mem_of_mem (db : DB) (ids : List Nat) (ts : ℚ)
    (rec : ProcessRecord) (h : rec ∈ db.procs) (hin : rec.id ∈ ids) :
    ({ rec with ended := 1, last_seen := ts } : ProcessRecord) ∈
      (markProcessEnded db ids ts).procs := by
  unfold markProcessEnded
  exact List.mem_map.mpr ⟨rec, h, by rw [if_pos hin]⟩

/-- C4: a tracked ProcessKey absent from the seen-set of exactly one
lifecycle pass stays in all in-memory maps (missing counter 1) with its
record untouched; absent for a second consecutive pass it is removed from
the baseline, id and missing-counter maps and its record is marked
`ended=1` with `last_seen = now`, and that marking happens exactly once —
any later pass leaves the record alone. -/
theorem missing_two_ticks_ends (st : SamplerState) (conn : Conn)
    (seen1 seen2 : List (ProcKey × ℚ)) (ts1 ts2 : ℚ) (k : ProcKey) (c : ℚ)
    (i0 : Nat)
    (hprev : alLookup st.prev_cpu k = some c)
    (hm0 : (alLookup st.missing_ticks k).getD 0 = 0)
    (hpid : alLookup st.procid k = some i0)
    (hinj : ∀ k2, alLookup st.procid k2 = some i0 → k2 = k)
    (hnd : keysND st.prev_cpu)
    (habs1 : ∀ kt ∈ seen1, kt.1 ≠ k) (habs2 : ∀ kt ∈ seen2, kt.1 ≠ k) :
    alLookup (handleMissingAndEnded st conn seen1 ts1 true).1.prev_cpu k =
      some c ∧
    alLookup (handleMissingAndEnded st conn seen1 ts1 true).1.missing_ticks k =
      some 1 ∧
    alLookup (handleMissingAndEnded st conn seen1 ts1 true).1.procid k =
      some i0 ∧
    (∀ rec ∈ conn.cur.procs, rec.id = i0 →
      rec ∈ (handleMissingAndEnded st conn seen1 ts1 true).2.cur.procs) ∧
    (let r1 := handleMissingAndEnded st conn seen1 ts1 true
     let r2 := handleMissingAndEnded r1.1 r1.2 seen2 ts2 true
     alLookup r2.1.prev_cpu k = none ∧
     alLookup r2.1.missing_ticks k = none ∧
     alLookup r2.1.procid k = none ∧
     (∀ rec ∈ r1.2.cur.procs, rec.id = i0 →
       ({ rec with ended := 1, last_seen := ts2 } : ProcessRecord) ∈
         r2.2.cur.procs) ∧
     (∀ (conn3 : Conn) (seen3 : List (ProcKey × ℚ)) (ts3 : ℚ) (mok3 : Bool),
       conn3.committed = conn3.cur →
       ∀ rec ∈ conn3.cur.procs, rec.id = i0 →
         rec ∈ (handleMissingAndEnded r2.1 conn3 seen3 ts3 mok3).2.cur.procs)) := by
  obtain ⟨e1, e2, e3, e4⟩ :=
    handleMissingState_once st seen1 k c habs1 hnd hprev hm0
  have hnoend : i0 ∉ (handleMissingState st seen1).ended_ids := e4 i0 hinj
  have hst1_prev : alLookup
      (handleMissingAndEnded st conn seen1 ts1 true).1.prev_cpu k = some c := e1
  have hst1_miss : alLookup
      (handleMissingAndEnded st conn seen1 ts1 true).1.missing_ticks k =
      some 1 := e2
  have hst1_pid : alLookup
      (handleMissingAndEnded st conn seen1 ts1 true).1.procid k = some i0 := by
    show alLookup (handleMissingState st seen1).procid k = some i0
    rw [e3]
    exact hpid
  have hconn1 : ∀ rec ∈ conn.cur.procs, rec.id = i0 →
      rec ∈ (handleMissingAndEnded st conn seen1 ts1 true).2.cur.procs := by
    intro rec hrec hid
    rw [handleMissingAndEnded_snd]
    by_cases hnil : (handleMissingState st seen1).ended_ids = []
    · rw [if_pos hnil]
      exact hrec
    · rw [if_neg hnil, if_pos rfl]
      exact mark_mem_of_not_mem conn.cur _ ts1 rec hrec
        (by rw [hid]; exact hnoend)
  refine ⟨hst1_prev, hst1_miss, hst1_pid, hconn1, ?_⟩
  dsimp only []
  have hnd1 : keysND
      (handleMissingAndEnded st conn seen1 ts1 true).1.prev_cpu :=
    handleMissingState_prevND st seen1 hnd
  have hm1 : (alLookup
      (handleMissingAndEnded st conn seen1 ts1 true).1.missing_ticks k).getD 0
      = 1 := by
    rw [hst1_miss]
    rfl
  obtain ⟨f1, f2, f3, f4⟩ := handleMissingState_twice
    (handleMissingAndEnded st conn seen1 ts1 true).1 seen2 k c habs2 hnd1
    hst1_prev hm1
  have hi0in : i0 ∈ (handleMissingState
      (handleMissingAndEnded st conn seen1 ts1 true).1 seen2).ended_ids :=
    f4 i0 hst1_pid
  have hconn2 : ∀ rec ∈ (handleMissingAndEnded st conn seen1 ts1
        true).2.cur.procs, rec.id = i0 →
      ({ rec with ended := 1, last_seen := ts2 } : ProcessRecord) ∈
        (handleMissingAndEnded (handleMissingAndEnded st conn seen1 ts1 true).1
          (handleMissingAndEnded st conn seen1 ts1 true).2 seen2 ts2
          true).2.cur.procs := by
    intro rec hrec hid
    rw [handleMissingAndEnded_snd]
    rw [if_neg (List.ne_nil_of_mem hi0in), if_pos rfl]
    exact mark_mem_of_mem _ _ ts2 rec hrec (by rw [hid]; exact hi0in)
  have hconn3 : ∀ (conn3 : Conn) (seen3 : List (ProcKey × ℚ)) (ts3 : ℚ)
      (mok3 : Bool), conn3.committed = conn3.cur →
      ∀ rec ∈ conn3.cur.procs, rec.id = i0 →
        rec ∈ (handleMissingAndEnded
          (handleMissingAndEnded (handleMissingAndEnded st conn seen1 ts1
            true).1 (handleMissingAndEnded st conn seen1 ts1 true).2 seen2 ts2
            true).1 conn3 seen3 ts3 mok3).2.cur.procs := by
    intro conn3 seen3 ts3 mok3 hc3 rec hrec hid
    have hnd2 : keysND (handleMissingAndEnded
        (handleMissingAndEnded st conn seen1 ts1 true).1
        (handleMissingAndEnded st conn seen1 ts1 true).2 seen2 ts2
        true).1.prev_cpu :=
      handleMissingState_prevND _ seen2 hnd1
    have hout : i0 ∉ (handleMissingState (handleMissingAndEnded
        (handleMissingAndEnded st conn seen1 ts1 true).1
        (handleMissingAndEnded st conn seen1 ts1 true).2 seen2 ts2
        true).1 seen3).ended_ids := by
      intro hin
      obtain ⟨k2, hk2⟩ := handleMissingState_ended_src _ seen3 hnd2 i0 hin
      have hk2a : alLookup
          (handleMissingAndEnded st conn seen1 ts1 true).1.procid k2 =
          some i0 :=
        handleMissingState_procid_sub _ seen2 k2 i0 hk2
      have hk2b : alLookup st.procid k2 = some i0 :=
        handleMissingState_procid_sub st seen1 k2 i0 hk2a
      have hkk : k2 = k := hinj k2 hk2b
      rw [hkk] at hk2
      have hthis : alLookup (handleMissingState
          (handleMissingAndEnded st conn seen1 ts1 true).1 seen2).procid k =
          some i0 := hk2
      rw [f3] at hthis
      cases hthis
    rw [handleMissingAndEnded_snd]
    by_cases hnil : (handleMissingState (handleMissingAndEnded
        (handleMissingAndEnded st conn seen1 ts1 true).1
        (handleMissingAndEnded st conn seen1 ts1 true).2 seen2 ts2
        true).1 seen3).ended_ids = []
    · rw [if_pos hnil]
      exact hrec
    · rw [if_neg hnil]
      by_cases hmok : mok3 = true
      · rw [if_pos hmok]
        exact mark_mem_of_not_mem conn3.cur _ ts3 rec hrec
          (by rw [hid]; exact hout)
      · rw [if_neg hmok]
        dsimp only [Conn.rollback]
        rw [hc3]
        exact hrec
  exact ⟨f1, f2, f3, hconn2, hconn3⟩

/-- Concrete one-process instances for the lifecycle witness. -/
def recC4 : ProcessRecord := ⟨7, 1, 0, none, none, none, none, none, 1, 1, 0, false⟩

def stC4 : SamplerState := ⟨[((1, 0), 10)], [((1, 0), 7)], [], some 0⟩

def connC4 : Conn := ⟨⟨[recC4], [], 8⟩, ⟨[recC4], [], 8⟩⟩

/-- Witness for `missing_two_ticks_ends`: key `(1, 0)` with empty seen-sets
on two consecutive passes gets dropped and its record marked ended. -/
theorem missing_two_ticks_ends_witness :
    (let r1 := handleMissingAndEnded stC4 connC4 [] 50 true
     let r2 := handleMissingAndEnded r1.1 r1.2 [] 60 true
     alLookup r1.1.missing_ticks (1, 0) = some 1 ∧
     alLookup r2.1.prev_cpu (1, 0) = none ∧
     ({ recC4 with ended := 1, last_seen := 60 } : ProcessRecord) ∈
       r2.2.cur.procs) := by
  have hinj : ∀ k2, alLookup stC4.procid k2 = some 7 → k2 = ((1, 0) : ProcKey) := by
    intro k2 h
    by_cases hk : (((1 : Int), (0 : ℚ)) : ProcKey) = k2
    · exact hk.symm
    · rw [show alLookup stC4.procid k2 =
        (if (((1 : Int), (0 : ℚ)) : ProcKey) = k2 then some 7 else none) from
        rfl, if_neg hk] at h
      cases h
  have h := missing_two_ticks_ends stC4 connC4 [] [] 50 60 (1, 0) 10 7
    rfl rfl rfl hinj (by simp [stC4, keysND])
    (fun kt hkt => absurd hkt (by simp))
    (fun kt hkt => absurd hkt (by simp))
  obtain ⟨h1, h2, h3, h4, h5⟩ := h
  dsimp only [] at h5 ⊢
  obtain ⟨g1, g2, g3, g4, g5⟩ := h5
  refine ⟨h2, g1, ?_⟩
  exact g4 recC4 (h4 recC4 (by simp [connC4]) rfl) rfl

/-! ### Unreadable CPU time and lifecycle (C10) -/

theorem mem_alInsert (l : List (ProcKey × α)) (k : ProcKey) (v : α) :
    ∀ x ∈ alInsert l k v, x ∈ l ∨ x = (k, v) := by
  induction l with
  | nil => intro x hx; simp [alInsert] at hx; exact Or.inr hx
  | cons a t ih =>
    intro x hx
    by_cases ha : a.1 = k
    · rw [alInsert, if_pos ha] at hx
      rcases List.mem_cons.mp hx with h1 | h2
      · exact Or.inr h1
      · exact Or.inl (List.mem_cons_of_mem a h2)
    · rw [alInsert, if_neg ha] at hx
      rcases List.mem_cons.mp hx with h1 | h2
      · exact Or.inl (by rw [h1]; exact List.mem_cons_self a t)
      · rcases ih x h2 with h3 | h4
        · exact Or.inl (List.mem_cons_of_mem a h3)
        · exact Or.inr h4

/-- No enumeration entry whose key resolves to `k` has readable CPU times,
so `k` never enters the seen-dict. -/
theorem foldProc_seen_ne (cfg : SamplerCfg) (prev : List (ProcKey × ℚ))
    (dt ts : ℚ) (l : List ProcInfo) (acc : TickAcc) (k : ProcKey)
    (hl : ∀ q ∈ l, resolveKey q = some k → cpuTotalSeconds q.cpu_times = none)
    (hacc : ∀ kt ∈ acc.seen, kt.1 ≠ k) :
    ∀ kt ∈ (l.foldl (stepProc cfg prev dt ts) acc).seen, kt.1 ≠ k := by
  induction l generalizing acc with
  | nil => exact hacc
  | cons q t ih =>
    rw [List.foldl_cons]
    refine ih _ (fun q2 h2 => hl q2 (List.mem_cons_of_mem q h2)) ?_
    intro kt hkt
    unfold stepProc at hkt
    cases hk : resolveKey q with
    | none => rw [hk] at hkt; exact hacc kt hkt
    | some key =>
      rw [hk] at hkt
      dsimp only [] at hkt
      cases hcpu : cpuTotalSeconds q.cpu_times with
      | none => rw [hcpu] at hkt; exact hacc kt hkt
      | some t0 =>
        rw [hcpu] at hkt
        rcases mem_alInsert acc.seen key t0 kt hkt with h1 | h2
        · exact hacc kt h1
        · rw [h2]
          intro hkk
          have hkk2 : key = k := hkk
          have : resolveKey q = some k := by rw [hk, hkk2]
          rw [hl q (List.mem_cons_self q t) this] at hcpu
          cases hcpu

theorem foldProc_procid_ne (cfg : SamplerCfg) (prev : List (ProcKey × ℚ))
    (dt ts : ℚ) (l : List ProcInfo) (acc : TickAcc) (k : ProcKey)
    (hl : ∀ q ∈ l, resolveKey q ≠ some k) :
    alLookup (l.foldl (stepProc cfg prev dt ts) acc).procid k =
      alLookup acc.procid k := by
  induction l generalizing acc with
  | nil => rfl
  | cons q t ih =>
    rw [List.foldl_cons,
      ih _ (fun q2 h2 => hl q2 (List.mem_cons_of_mem q h2))]
    unfold stepProc
    cases hk : resolveKey q with
    | none => rfl
    | some key =>
      dsimp only []
      refine alLookup_insert_ne acc.procid key k _ ?_
      intro hkk
      exact hl q (List.mem_cons_self q t) (by rw [hk, hkk])

theorem stepProc_keysNodup (cfg : SamplerCfg) (prev : List (ProcKey × ℚ))
    (dt ts : ℚ) (acc : TickAcc) (q : ProcInfo)
    (h : acc.db.keysNodup) : (stepProc cfg prev dt ts acc q).db.keysNodup := by
  unfold stepProc
  cases resolveKey q with
  | none => exact h
  | some key => exact upsert_keysNodup acc.db key.1 key.2 _ _ _ _ _ ts _ h

theorem foldProc_keysNodup (cfg : SamplerCfg) (prev : List (ProcKey × ℚ))
    (dt ts : ℚ) (l : List ProcInfo) (acc : TickAcc)
    (h : acc.db.keysNodup) :
    (l.foldl (stepProc cfg prev dt ts) acc).db.keysNodup := by
  induction l generalizing acc with
  | nil => exact h
  | cons q t ih =>
    rw [List.foldl_cons]
    exact ih _ (stepProc_keysNodup cfg prev dt ts acc q h)

/-- The upsert returns the id of a record holding the upserted key. -/
theorem upsert_id_record (db : DB) (pid : Int) (ct : ℚ)
    (exe nm cmd user : Option String) (ppid : Option Int) (now_ts : ℚ)
    (pm : Bool) (hwf : db.keysNodup) :
    ∃ r' ∈ (insertOrGetProcessId db pid ct exe nm cmd user ppid now_ts pm).2.procs,
      r'.pid = pid ∧ r'.create_time = ct ∧
      (insertOrGetProcessId db pid ct exe nm cmd user ppid now_ts pm).1 =
        r'.id := by
  cases hany : db.procs.any (matchKey pid ct) with
  | true =>
    obtain ⟨r0, hr0, hm0⟩ := List.any_eq_true.mp hany
    obtain ⟨hmem, hid⟩ := upsert_existing db pid ct exe nm cmd user ppid
      now_ts pm hwf r0 hr0 hm0
    obtain ⟨hp0, hc0⟩ := (matchKey_iff pid ct r0).mp hm0
    exact ⟨upsertUpdate r0 exe nm cmd user ppid now_ts pm, hmem, hp0, hc0,
      by rw [hid]; rfl⟩
  | false =>
    unfold insertOrGetProcessId
    simp only [hany, Bool.false_eq_true, if_false]
    exact ⟨_, List.mem_append_right _ (List.mem_singleton_self _), rfl, rfl, rfl⟩

/-- C10: a process enumerated with a resolvable key but unreadable
cumulative CPU time still gets a Sample row (delta 0) yet stays out of the
seen-set, so its missing counter increments exactly as if absent; after a
second consecutive such tick the still-running process is dropped from all
tracking maps and its record is marked ended. -/
theorem unreadable_cpu_lifecycle (cfg : SamplerCfg) (st : SamplerState)
    (conn : Conn) (lm mono ts : ℚ) (l1 l2 : List ProcInfo) (p : ProcInfo)
    (k : ProcKey) (c : ℚ)
    (hk : resolveKey p = some k)
    (hcpu : cpuTotalSeconds p.cpu_times = none)
    (hL1 : ∀ q ∈ l1, resolveKey q ≠ some k)
    (hL2 : ∀ q ∈ l2, resolveKey q ≠ some k)
    (hprev : alLookup st.prev_cpu k = some c)
    (hnd : keysND st.prev_cpu) :
    (∃ i, sampleOf cfg st.prev_cpu (clamp (mono - lm) (1 / 4) 5) ts k i p ∈
        (steadyTick cfg st conn lm mono ts (l1 ++ p :: l2) true
          true).2.2.cur.samples ∧
      (sampleOf cfg st.prev_cpu (clamp (mono - lm) (1 / 4) 5) ts k i
        p).delta_cpu_s = 0) ∧
    ((alLookup st.missing_ticks k).getD 0 = 0 →
      alLookup (steadyTick cfg st conn lm mono ts (l1 ++ p :: l2) true
        true).2.1.missing_ticks k = some 1 ∧
      alLookup (steadyTick cfg st conn lm mono ts (l1 ++ p :: l2) true
        true).2.1.prev_cpu k = some c) ∧
    ((alLookup st.missing_ticks k).getD 0 = 1 → conn.cur.keysNodup →
      alLookup (steadyTick cfg st conn lm mono ts (l1 ++ p :: l2) true
        true).2.1.prev_cpu k = none ∧
      alLookup (steadyTick cfg st conn lm mono ts (l1 ++ p :: l2) true
        true).2.1.missing_ticks k = none ∧
      alLookup (steadyTick cfg st conn lm mono ts (l1 ++ p :: l2) true
        true).2.1.procid k = none ∧
      ∃ rec ∈ (steadyTick cfg st conn lm mono ts (l1 ++ p :: l2) true
        true).2.2.cur.procs,
        rec.pid = k.1 ∧ rec.create_time = k.2 ∧ rec.ended = 1 ∧
        rec.last_seen = ts) := by
  have hpmem : p ∈ l1 ++ p :: l2 :=
    List.mem_append_right _ (List.mem_cons_self p l2)
  have hseenall : ∀ q ∈ l1 ++ p :: l2, resolveKey q = some k →
      cpuTotalSeconds q.cpu_times = none := by
    intro q hq hq2
    rcases List.mem_append.mp hq with h1 | h2
    · exact absurd hq2 (hL1 q h1)
    · rcases List.mem_cons.mp h2 with rfl | h3
      · exact hcpu
      · exact absurd hq2 (hL2 q h3)
  have hseen : ∀ kt ∈ ((l1 ++ p :: l2).foldl
      (stepProc cfg st.prev_cpu (clamp (mono - lm) (1 / 4) 5) ts)
      ⟨conn.cur, st.procid, [], []⟩).seen, kt.1 ≠ k :=
    foldProc_seen_ne cfg st.prev_cpu _ ts (l1 ++ p :: l2)
      ⟨conn.cur, st.procid, [], []⟩ k hseenall
      (fun kt hkt => absurd hkt (by simp))
  refine ⟨?_, ?_, ?_⟩
  · obtain ⟨i, hi⟩ := foldProc_rows_exists cfg st.prev_cpu
      (clamp (mono - lm) (1 / 4) 5) ts (l1 ++ p :: l2)
      ⟨conn.cur, st.procid, [], []⟩ p hpmem k hk
    refine ⟨i, ?_, ?_⟩
    · rw [steadyTick_cur_samples]
      exact List.mem_append_right _ hi
    · have hd : (sampleOf cfg st.prev_cpu (clamp (mono - lm) (1 / 4) 5) ts k i
          p).delta_cpu_s = deltaCpu
          (match cpuTotalSeconds p.cpu_times with
           | none => none
           | some _ => alLookup st.prev_cpu k) (cpuTotalSeconds p.cpu_times) :=
        rfl
      rw [hd, hcpu]
      rfl
  · intro hm0
    have h1 := handleMissingState_once
      { st with procid := ((l1 ++ p :: l2).foldl
          (stepProc cfg st.prev_cpu (clamp (mono - lm) (1 / 4) 5) ts)
          ⟨conn.cur, st.procid, [], []⟩).procid, last_mono := some mono }
      ((l1 ++ p :: l2).foldl
        (stepProc cfg st.prev_cpu (clamp (mono - lm) (1 / 4) 5) ts)
        ⟨conn.cur, st.procid, [], []⟩).seen k c hseen hnd hprev hm0
    exact ⟨h1.2.1, h1.1⟩
  · intro hm1 hwf
    have hnd_acc1 : ((l1.foldl
        (stepProc cfg st.prev_cpu (clamp (mono - lm) (1 / 4) 5) ts)
        ⟨conn.cur, st.procid, [], []⟩).db).keysNodup :=
      foldProc_keysNodup cfg st.prev_cpu _ ts l1 _ hwf
    obtain ⟨r', hr'mem, hr'pid, hr'ct, hr'id⟩ := upsert_id_record
      (l1.foldl (stepProc cfg st.prev_cpu (clamp (mono - lm) (1 / 4) 5) ts)
        ⟨conn.cur, st.procid, [], []⟩).db k.1 k.2 (safeStr p.exe)
      (safeStr p.name) (cmdlineStr p.cmdline) (safeStr p.username) p.ppid ts
      (tickPartialMeta p) hnd_acc1
    have hmem1 : r' ∈ (stepProc cfg st.prev_cpu (clamp (mono - lm) (1 / 4) 5)
        ts (l1.foldl (stepProc cfg st.prev_cpu (clamp (mono - lm) (1 / 4) 5)
          ts) ⟨conn.cur, st.procid, [], []⟩) p).db.procs := by
      unfold stepProc
      rw [hk]
      exact hr'mem
    have hpidstep : alLookup (stepProc cfg st.prev_cpu
        (clamp (mono - lm) (1 / 4) 5) ts (l1.foldl (stepProc cfg st.prev_cpu
          (clamp (mono - lm) (1 / 4) 5) ts)
          ⟨conn.cur, st.procid, [], []⟩) p).procid k = some r'.id := by
      unfold stepProc
      rw [hk]
      dsimp only []
      rw [← hr'id]
      exact alLookup_insert_self _ k _
    have hfold : (l1 ++ p :: l2).foldl
        (stepProc cfg st.prev_cpu (clamp (mono - lm) (1 / 4) 5) ts)
        ⟨conn.cur, st.procid, [], []⟩ =
        l2.foldl (stepProc cfg st.prev_cpu (clamp (mono - lm) (1 / 4) 5) ts)
          (stepProc cfg st.prev_cpu (clamp (mono - lm) (1 / 4) 5) ts
            (l1.foldl (stepProc cfg st.prev_cpu
              (clamp (mono - lm) (1 / 4) 5) ts)
              ⟨conn.cur, st.procid, [], []⟩) p) := by
      rw [List.foldl_append, List.foldl_cons]
    have hmem2 : r' ∈ ((l1 ++ p :: l2).foldl
        (stepProc cfg st.prev_cpu (clamp (mono - lm) (1 / 4) 5) ts)
        ⟨conn.cur, st.procid, [], []⟩).db.procs := by
      rw [hfold]
      exact foldProc_keeps_record cfg st.prev_cpu _ ts l2 _ k hL2 r' hmem1
        hr'pid hr'ct
    have hpidF : alLookup ((l1 ++ p :: l2).foldl
        (stepProc cfg st.prev_cpu (clamp (mono - lm) (1 / 4) 5) ts)
        ⟨conn.cur, st.procid, [], []⟩).procid k = some r'.id := by
      rw [hfold, foldProc_procid_ne cfg st.prev_cpu _ ts l2 _ k hL2]
      exact hpidstep
    obtain ⟨f1, f2, f3, f4⟩ := handleMissingState_twice
      { st with procid := ((l1 ++ p :: l2).foldl
          (stepProc cfg st.prev_cpu (clamp (mono - lm) (1 / 4) 5) ts)
          ⟨conn.cur, st.procid, [], []⟩).procid, last_mono := some mono }
      ((l1 ++ p :: l2).foldl
        (stepProc cfg st.prev_cpu (clamp (mono - lm) (1 / 4) 5) ts)
        ⟨conn.cur, st.procid, [], []⟩).seen k c hseen hnd hprev hm1
    have hiend := f4 r'.id hpidF
    refine ⟨f1, f2, f3, ⟨{ r' with ended := 1, last_seen := ts }, ?_,
      by dsimp only []; rw [hr'pid], by dsimp only []; rw [hr'ct], rfl, rfl⟩⟩
    show ({ r' with ended := 1, last_seen := ts } : ProcessRecord) ∈
      (handleMissingAndEnded
        { st with procid := ((l1 ++ p :: l2).foldl
            (stepProc cfg st.prev_cpu (clamp (mono - lm) (1 / 4) 5) ts)
            ⟨conn.cur, st.procid, [], []⟩).procid, last_mono := some mono }
        (Conn.commit ⟨{ ((l1 ++ p :: l2).foldl
            (stepProc cfg st.prev_cpu (clamp (mono - lm) (1 / 4) 5) ts)
            ⟨conn.cur, st.procid, [], []⟩).db with
          samples := ((l1 ++ p :: l2).foldl
            (stepProc cfg st.prev_cpu (clamp (mono - lm) (1 / 4) 5) ts)
            ⟨conn.cur, st.procid, [], []⟩).db.samples ++
            ((l1 ++ p :: l2).foldl
            (stepProc cfg st.prev_cpu (clamp (mono - lm) (1 / 4) 5) ts)
            ⟨conn.cur, st.procid, [], []⟩).rows }, conn.committed⟩)
        ((l1 ++ p :: l2).foldl
          (stepProc cfg st.prev_cpu (clamp (mono - lm) (1 / 4) 5) ts)
          ⟨conn.cur, st.procid, [], []⟩).seen ts true).2.cur.procs
    rw [handleMissingAndEnded_snd, if_neg (List.ne_nil_of_mem hiend),
      if_pos rfl]
    exact mark_mem_of_mem _ _ ts r' hmem2 hiend

/-- A process with resolvable key but absent cpu_times. -/
def procB : ProcInfo :=
  ⟨some 2, some 0, none, none, none, none, none, none, none, none, none, none⟩

def stB : SamplerState := ⟨[((2, 0), 5)], [((2, 0), 9)], [], some 0⟩

/-- Witness for `unreadable_cpu_lifecycle`: one tracked process whose CPU
times are unreadable on a steady tick still yields a zero-delta row and a
missing count of 1. -/
theorem unreadable_cpu_lifecycle_witness :
    (∃ i, sampleOf cfgA stB.prev_cpu (clamp (1 - 0) (1 / 4) 5) 100 (2, 0) i
        procB ∈ (steadyTick cfgA stB initConn 0 1 100 ([] ++ procB :: [])
        true true).2.2.cur.samples ∧
      (sampleOf cfgA stB.prev_cpu (clamp (1 - 0) (1 / 4) 5) 100 (2, 0) i
        procB).delta_cpu_s = 0) ∧
    alLookup (steadyTick cfgA stB initConn 0 1 100 ([] ++ procB :: []) true
      true).2.1.missing_ticks (2, 0) = some 1 := by
  have h := unreadable_cpu_lifecycle cfgA stB initConn 0 1 100 [] [] procB
    (2, 0) 5 rfl rfl (fun q hq => absurd hq (by simp))
    (fun q hq => absurd hq (by simp)) rfl (by simp [stB, keysND])
  exact ⟨h.1, (h.2.1 rfl).1⟩

end LPS
